import Mathlib

/-!
Room (comet/room.go): the batching fan-out of a push server

A shallow embedding of `src/comet/room.go`.

* `Room` holds the fields of the Go struct; the subscriber map `chs` is a finite set of
  channel identities (pointers are natural numbers).
* The goroutine `Room.push` is a small-step machine over the program points of its loop
  (`PC`), so that calls of `Put`, `Del`, `Push`, `Close`, timer expiry and the passing of
  time can be interleaved with it (`step`, `exec`).
* Go channels are modelled with their runtime semantics (`Chan`): a bounded buffer plus a
  parked receiver that a sender hands its value to directly.
* `Ring`, the timer facility and the constants `SignalNum`, `ProtoReady`, `ProtoFinish`
  are not declared in room.go; the ring and the timer are modelled from the specification,
  the constants are parameters (`Env`).

Instants are integers (nanoseconds). The remaining time of a cycle is computed as Go
computes it in `int64` (`time.Duration`): `Time.Sub` saturates, the subtraction wraps
around (`sat64`, `wrap64`, `Sys.least`).
-/

namespace Comet

/-! ## Data model -/

/-- Options of a room (`RoomOptions`); Go `int` and `time.Duration` are integers. -/
structure RoomOptions where
  ChannelSize : Int
  ProtoSize : Int
  BatchNum : Int
  SignalTime : Int
deriving DecidableEq, Repr

/-- A queued message (`Proto`): version, operation and body, the three fields room.go uses. -/
structure Proto where
  Ver : Int
  Operation : Int
  Body : List Nat
deriving DecidableEq, Repr, Inhabited

/-- The two errors of the ring: nothing to read, no room to write. -/
inductive RingErr where
  | ErrRingEmpty
  | ErrRingFull
deriving DecidableEq, Repr

/-- Modelled from the spec: the type `Ring` (ring.go is not among the sources). Section 4.1:
fixed-capacity circular storage with independent read and write cursors. The cursors
count reads and writes; the slot of a cursor is its value modulo the capacity. -/
structure Ring where
  num : Nat
  rp : Nat
  wp : Nat
  data : List Proto
deriving DecidableEq, Repr

/-- Modelled from the spec: `Ring.Init`, absent from the sources: a ring of the given
capacity with both cursors at zero. -/
def Ring.Init (num : Int) : Ring :=
  { num := num.toNat, rp := 0, wp := 0, data := List.replicate num.toNat default }

/-- Modelled from the spec: `Ring.Get` (TryRead), absent from the sources: `Empty` when
the cursors coincide, otherwise the slot at the read cursor. -/
def Ring.Get (r : Ring) : Except RingErr Nat :=
  if r.rp = r.wp then .error .ErrRingEmpty else .ok (r.rp % r.num)

/-- Modelled from the spec: `Ring.GetAdv` (CommitRead), absent from the sources. -/
def Ring.GetAdv (r : Ring) : Ring := { r with rp := r.rp + 1 }

/-- Modelled from the spec: `Ring.Set` (TryWrite), absent from the sources: `Full` when
the write cursor would overtake the read cursor, otherwise the slot at the write cursor. -/
def Ring.Set (r : Ring) : Except RingErr Nat :=
  if r.wp - r.rp ≥ r.num then .error .ErrRingFull else .ok (r.wp % r.num)

/-- Modelled from the spec: `Ring.SetAdv` (CommitWrite), absent from the sources. -/
def Ring.SetAdv (r : Ring) : Ring := { r with wp := r.wp + 1 }

/-- Reading through the slot pointer returned by `Get`. -/
def Ring.slot (r : Ring) (i : Nat) : Proto := r.data.getD i default

/-- Writing the three fields through the slot pointer returned by `Set`. -/
def Ring.store (r : Ring) (i : Nat) (p : Proto) : Ring := { r with data := r.data.set i p }

/-- The committed and not yet read messages of a ring, oldest first. -/
def Ring.unread (r : Ring) : List Proto :=
  (List.range (r.wp - r.rp)).map (fun k => r.slot ((r.rp + k) % r.num))

/-- A Go channel of `int`: capacity, buffered values, whether the receiving goroutine is
parked in a receive, and the value a sender handed to the parked receiver. -/
structure Chan where
  cap : Nat
  buf : List Int
  parked : Bool
  handoff : Option Int
deriving DecidableEq, Repr

/-- The Go builtin `make(chan int, cap)`. -/
def Chan.make (cap : Nat) : Chan := { cap := cap, buf := [], parked := false, handoff := none }

/-- A send that does not wait: to the parked receiver if there is one, else into the
buffer if it has room; `none` when the send cannot proceed. -/
def Chan.trySend (ch : Chan) (v : Int) : Option Chan :=
  if ch.parked then some { ch with parked := false, handoff := some v }
  else if ch.buf.length < ch.cap then some { ch with buf := ch.buf ++ [v] }
  else none

/-- A receive by the single consumer: the handed value, else the oldest buffered value,
else the receiver parks. -/
def Chan.recv (ch : Chan) : Option Int × Chan :=
  match ch.handoff with
  | some v => (some v, { ch with handoff := none })
  | none =>
    match ch.buf with
    | v :: rest => (some v, { ch with buf := rest })
    | [] => (none, { ch with parked := true })

/-- The fields of the Go struct `Room` that are data; the lock is the atomicity of the
operations below, the timer handle is the registration kept in `Sys`. -/
structure Room where
  id : Int
  proto : Ring
  signal : Chan
  chs : Finset Nat
  options : RoomOptions
deriving DecidableEq

/-- Constants and collaborators room.go refers to without declaring them: the capacity of
the wake queue, the two notification values, and for each flush (by number) and
subscriber whether its `Pushs` returns an error. -/
structure Env where
  SignalNum : Nat
  ProtoReady : Int
  ProtoFinish : Int
  PushsErr : Nat → Nat → Bool

/-- Program points of the goroutine `push`. -/
inductive PC where
  | start    -- line 67: allocate the batch arrays, register the timer
  | top      -- line 78: head of the loop
  | recv     -- line 87: wait for a notification unless due
  | drain    -- line 93: head of the merge loop
  | check    -- line 109: continue unless due
  | fanout   -- line 112: deliver a non-empty batch
  | fanned   -- line 119: deliveries made, reset
  | stopped  -- after line 123: left the loop, timer deleted
  | crashed  -- run-time panic (negative length, index out of range)
deriving DecidableEq, Repr

/-- Local variables of the goroutine `push`. -/
structure PushLoop where
  pc : PC
  n : Nat
  done : Bool
  last : Int
  vers : List Int
  ops : List Int
  msgs : List (List Nat)
deriving DecidableEq, Repr

/-- One call `ch.Pushs(vers[:n], ops[:n], msgs[:n])` and whether it returned an error. -/
structure PushsCall where
  ch : Nat
  vers : List Int
  ops : List Int
  msgs : List (List Nat)
  failed : Bool
deriving DecidableEq, Repr

/-- One flush: when it began, the cycle start time `last` the goroutine held then, the
batch, and the calls made (a map is ranged over in no particular order, so the calls form
a multiset). -/
structure FlushRec where
  time : Int
  last : Int
  vers : List Int
  ops : List Int
  msgs : List (List Nat)
  calls : Multiset PushsCall
deriving DecidableEq

/-- A room with its goroutine, the clock, the timer registration (the instant at which
the callback is due, if pending), and what has been observed: flushes and `Close` calls
on subscribers. -/
structure Sys where
  room : Room
  w : PushLoop
  now : Int
  timer : Option Int
  flushed : List FlushRec
  closed : Multiset Nat
deriving DecidableEq

/-! ## Operations of room.go -/

/-- The function `NewRoom`: a room with an initialised ring, an empty wake queue, no
subscribers, and its goroutine about to start. -/
def NewRoom (e : Env) (id : Int) (now : Int) (options : RoomOptions) : Sys :=
  { room := { id := id, proto := Ring.Init options.ProtoSize, signal := Chan.make e.SignalNum,
              chs := ∅, options := options },
    w := { pc := .start, n := 0, done := false, last := 0, vers := [], ops := [], msgs := [] },
    now := now, timer := none, flushed := [], closed := 0 }

/-- The method `Put`. -/
def Room.Put (r : Room) (ch : Nat) : Room := { r with chs := insert ch r.chs }

/-- The method `Del`. -/
def Room.Del (r : Room) (ch : Nat) : Room := { r with chs := r.chs.erase ch }

/-- The method `Online`. -/
def Room.Online (r : Room) : Nat := r.chs.card

/-- The method `Push`: the room afterwards and the returned error (`none` is nil). -/
def Room.Push (e : Env) (r : Room) (ver : Int) (operation : Int) (msg : List Nat) :
    Room × Option RingErr :=
  let res : Room × Option RingErr :=
    match r.proto.Set with
    | .ok i => ({ r with proto := (r.proto.store i ⟨ver, operation, msg⟩).SetAdv }, none)
    | .error err => (r, some err)
  match res.1.signal.trySend e.ProtoReady with
  | some ch => ({ res.1 with signal := ch }, res.2)
  | none => res

/-- The method `Close`: `none` while the send of `ProtoFinish` has to wait; otherwise the
room afterwards and the `Close` calls made on subscribers. -/
def Room.Close (e : Env) (r : Room) : Option (Room × Multiset Nat) :=
  match r.signal.trySend e.ProtoFinish with
  | some ch => some ({ r with signal := ch }, r.chs.val)
  | none => none

/-- The batch `vers[:n], ops[:n], msgs[:n]` as a list of messages. -/
def batchOf (vers : List Int) (ops : List Int) (msgs : List (List Nat)) : List Proto :=
  List.zipWith3 Proto.mk vers ops msgs

/-- The calls of one fan-out: `Pushs` once on every subscriber in the map. -/
def fanOut (e : Env) (k : Nat) (chs : Finset Nat) (vers : List Int) (ops : List Int)
    (msgs : List (List Nat)) : Multiset PushsCall :=
  chs.val.map (fun ch => { ch := ch, vers := vers, ops := ops, msgs := msgs,
                           failed := e.PushsErr k ch })

/-- The least `int64`. -/
def minInt64 : Int := -9223372036854775808

/-- The greatest `int64`. -/
def maxInt64 : Int := 9223372036854775807

/-- The result of `int64` arithmetic: the integer reduced to the range of two's complement
on 64 bits. -/
def wrap64 (x : Int) : Int :=
  (x + 9223372036854775808) % 18446744073709551616 - 9223372036854775808

/-- The result of `Time.Sub`: the difference of two instants, or the least or greatest
`time.Duration` when it does not fit. -/
def sat64 (x : Int) : Int :=
  if x < minInt64 then minInt64 else if maxInt64 < x then maxInt64 else x

/-- The value `least` of line 79: `r.options.SignalTime - time.Now().Sub(last)`, an
`int64` subtraction of a saturated difference of instants. -/
def Sys.least (s : Sys) : Int :=
  wrap64 (s.room.options.SignalTime - sat64 (s.now - s.w.last))

/-- One step of the goroutine `push` (lines 57-127), from program point to program point.
A step at `recv` with nothing to receive parks the goroutine. -/
def Room.push (e : Env) (s : Sys) : Sys :=
  let w := s.w
  let r := s.room
  match w.pc with
  | .start =>
    if r.options.BatchNum < 0 then { s with w := { w with pc := .crashed } }
    else
      { s with
        w := { w with pc := .top,
                      vers := List.replicate r.options.BatchNum.toNat 0,
                      ops := List.replicate r.options.BatchNum.toNat 0,
                      msgs := List.replicate r.options.BatchNum.toNat [] },
        timer := some (s.now + r.options.SignalTime) }
  | .top =>
    if w.n > 0 then
      if s.least > 0 then { s with timer := some (s.now + s.least), w := { w with pc := .recv } }
      else { s with w := { w with done := true, pc := .recv } }
    else { s with w := { w with last := s.now, pc := .recv } }
  | .recv =>
    if w.done then { s with w := { w with pc := .drain } }
    else
      match r.signal.recv with
      | (none, ch) => { s with room := { r with signal := ch } }
      | (some v, ch) =>
        if v ≠ e.ProtoReady then
          { s with room := { r with signal := ch }, timer := none, w := { w with pc := .stopped } }
        else { s with room := { r with signal := ch }, w := { w with pc := .drain } }
  | .drain =>
    if (w.n : Int) ≥ r.options.BatchNum then { s with w := { w with done := true, pc := .check } }
    else
      match r.proto.Get with
      | .error _ => { s with w := { w with pc := .check } }
      | .ok i =>
        if w.n < w.vers.length ∧ w.n < w.ops.length ∧ w.n < w.msgs.length then
          { s with
            w := { w with vers := w.vers.set w.n (r.proto.slot i).Ver,
                          ops := w.ops.set w.n (r.proto.slot i).Operation,
                          msgs := w.msgs.set w.n (r.proto.slot i).Body,
                          n := w.n + 1 },
            room := { r with proto := r.proto.GetAdv } }
        else { s with w := { w with pc := .crashed } }
  | .check =>
    if w.done then { s with w := { w with pc := .fanout } }
    else { s with w := { w with pc := .top } }
  | .fanout =>
    if w.n > 0 then
      if w.n ≤ w.vers.length ∧ w.n ≤ w.ops.length ∧ w.n ≤ w.msgs.length then
        { s with
          flushed := s.flushed ++
            [{ time := s.now, last := w.last, vers := w.vers.take w.n, ops := w.ops.take w.n,
               msgs := w.msgs.take w.n,
               calls := fanOut e s.flushed.length r.chs (w.vers.take w.n) (w.ops.take w.n)
                          (w.msgs.take w.n) }],
          w := { w with pc := .fanned } }
      else { s with w := { w with pc := .crashed } }
    else { s with w := { w with done := false, pc := .top } }
  | .fanned => { s with w := { w with n := 0, done := false, pc := .top } }
  | .stopped => s
  | .crashed => s

/-- What can happen to a room: time passes, the timer callback runs, the goroutine takes
a step, or one of the methods is called. -/
inductive Ev where
  | tick (d : Nat)
  | fire
  | work
  | Put (ch : Nat)
  | Del (ch : Nat)
  | Push (ver : Int) (operation : Int) (msg : List Nat)
  | Close
deriving DecidableEq, Repr

/-- Modelled from the spec: the callback of the shared timer (section 6, `Arm`), absent
from the sources. It runs once the registration is due and sends `ProtoReady`, waiting
while the wake queue cannot take it; the registration is then spent. -/
def timerFire (e : Env) (s : Sys) : Sys :=
  match s.timer with
  | none => s
  | some t =>
    if t ≤ s.now then
      match s.room.signal.trySend e.ProtoReady with
      | some ch => { s with room := { s.room with signal := ch }, timer := none }
      | none => s
    else s

/-- The effect of one event; an event that cannot proceed leaves the state as it is. -/
def step (e : Env) (s : Sys) : Ev → Sys
  | .tick d => { s with now := s.now + d }
  | .fire => timerFire e s
  | .work => Room.push e s
  | .Put ch => { s with room := s.room.Put ch }
  | .Del ch => { s with room := s.room.Del ch }
  | .Push ver operation msg => { s with room := (s.room.Push e ver operation msg).1 }
  | .Close =>
    match s.room.Close e with
    | some (r, cs) => { s with room := r, closed := s.closed + cs }
    | none => s

/-- The state after a sequence of events. -/
def exec (e : Env) (s : Sys) (evs : List Ev) : Sys := evs.foldl (step e) s

/-! ## Invariants and observations -/

/-- Well-formed rings: the read cursor never passes the write cursor, at most `num`
messages are unread, and the storage has `num` slots. -/
def Ring.WF (r : Ring) : Prop := r.rp ≤ r.wp ∧ r.wp - r.rp ≤ r.num ∧ r.data.length = r.num

instance (r : Ring) : Decidable r.WF := by unfold Ring.WF; infer_instance

/-- The options are values of their Go types as far as the arithmetic of the loop goes:
`SignalTime` is a `time.Duration`, an `int64`. -/
def RoomOptions.Typed (o : RoomOptions) : Prop :=
  minInt64 ≤ o.SignalTime ∧ o.SignalTime ≤ maxInt64

instance (o : RoomOptions) : Decidable o.Typed := by unfold RoomOptions.Typed; infer_instance

/-- The invariant of a room created at time `t0`: the ring is well formed, the clock has
not gone back, the batch arrays have `BatchNum` slots of which `n` are in use, `done` is
clear at the head of the loop and set at the fan-out, `done` is only ever set by the
count or by the deadline (for a `SignalTime` that is an `int64`), and `last` holds an
instant of this room once it was written. -/
def Sys.Inv (t0 : Int) (s : Sys) : Prop :=
  s.room.proto.WF ∧
  t0 ≤ s.now ∧
  (s.w.pc = .start → s.w.n = 0 ∧ s.w.done = false) ∧
  (s.w.pc = .crashed → s.room.options.BatchNum < 0) ∧
  (s.w.pc ≠ .start → s.w.pc ≠ .crashed →
    0 ≤ s.room.options.BatchNum ∧
    s.w.vers.length = s.room.options.BatchNum.toNat ∧
    s.w.ops.length = s.room.options.BatchNum.toNat ∧
    s.w.msgs.length = s.room.options.BatchNum.toNat ∧
    s.w.n ≤ s.room.options.BatchNum.toNat) ∧
  (s.w.pc = .top → s.w.done = false) ∧
  (s.w.pc = .fanout ∨ s.w.pc = .fanned → s.w.done = true) ∧
  (s.room.options.Typed → s.w.done = true →
    s.room.options.BatchNum ≤ s.w.n ∨ s.room.options.SignalTime ≤ s.now - s.w.last) ∧
  (s.w.pc = .start ∨ s.w.pc = .crashed ∨ (s.w.pc = .top ∧ s.w.n = 0) ∨
    (t0 ≤ s.w.last ∧ s.w.last ≤ s.now))

instance (t0 : Int) (s : Sys) : Decidable (s.Inv t0) := by unfold Sys.Inv; infer_instance

/-- The accumulated entries `0..n-1` of the batch arrays that have not been handed to the
subscribers: at `fanned` the deliveries of the batch have been made and `n` is about to
be reset. -/
def Sys.acc (s : Sys) : List Proto :=
  if s.w.pc = .fanned then []
  else batchOf (s.w.vers.take s.w.n) (s.w.ops.take s.w.n) (s.w.msgs.take s.w.n)

/-- The batches flushed so far, concatenated in flush order. -/
def Sys.delivered (s : Sys) : List Proto :=
  (s.flushed.map (fun f => batchOf f.vers f.ops f.msgs)).flatten

/-- Flushed, then accumulated, then unread. -/
def Sys.total (s : Sys) : List Proto := s.delivered ++ s.acc ++ s.room.proto.unread

/-- The messages of the `Push` calls that returned nil along a sequence of events, in
call order. -/
def accepted (e : Env) : Sys → List Ev → List Proto
  | _, [] => []
  | s, ev :: evs =>
    (match ev with
     | .Push ver operation msg =>
       if (s.room.Push e ver operation msg).2 = none then [⟨ver, operation, msg⟩] else []
     | _ => []) ++ accepted e (step e s ev) evs

/-- What holds of every flush of a room created at `t0`: the three slices have one
length between 1 and `BatchNum`, every call carries these slices, no subscriber is called
twice, and a batch below `BatchNum` is flushed only once `SignalTime`, an `int64`, has
passed since the cycle start. -/
def FlushRec.Ok (t0 : Int) (o : RoomOptions) (f : FlushRec) : Prop :=
  f.ops.length = f.vers.length ∧ f.msgs.length = f.vers.length ∧
  1 ≤ f.vers.length ∧ (f.vers.length : Int) ≤ o.BatchNum ∧
  (∀ c ∈ f.calls, c.vers = f.vers ∧ c.ops = f.ops ∧ c.msgs = f.msgs) ∧
  (f.calls.map PushsCall.ch).Nodup ∧
  t0 ≤ f.last ∧ f.last ≤ f.time ∧
  (o.Typed → (f.vers.length : Int) < o.BatchNum → f.last + o.SignalTime ≤ f.time)

/-- Every flush so far satisfies `FlushRec.Ok`. -/
def Sys.LogOk (t0 : Int) (s : Sys) : Prop := ∀ f ∈ s.flushed, f.Ok t0 s.room.options

/-- An environment for the examples: a wake queue of capacity 1, `ProtoReady = 1`,
`ProtoFinish = 0`, and subscriber 2 failing every delivery. -/
def exEnv : Env :=
  { SignalNum := 1, ProtoReady := 1, ProtoFinish := 0, PushsErr := fun _ ch => decide (ch = 2) }

/-- A room whose ring of capacity 1 holds one unread message. -/
def exFullRoom : Room :=
  ((NewRoom exEnv 7 0 { ChannelSize := 8, ProtoSize := 1, BatchNum := 3, SignalTime := 50 }).room.Push
    exEnv 1 4 [10]).1

/-- A room with subscribers 1 and 2 and an empty wake queue. -/
def exRoom : Room :=
  (((NewRoom exEnv 7 0 { ChannelSize := 8, ProtoSize := 4, BatchNum := 3, SignalTime := 50 }).room.Put
    1).Put 2)

/-- A goroutine at `fanout` with two accumulated messages, subscribers 1 and 2. -/
def exDue : Sys :=
  { room := exRoom,
    w := { pc := .fanout, n := 2, done := true, last := 0, vers := [1, 1, 0], ops := [4, 4, 0],
           msgs := [[10], [11], []] },
    now := 50, timer := none, flushed := [], closed := 0 }

/-- A goroutine at its receive with `ProtoFinish` in the wake queue and the timer pending. -/
def exFinish : Sys :=
  { room := { exRoom with signal := { cap := 1, buf := [0], parked := false, handoff := none } },
    w := { pc := .recv, n := 1, done := false, last := 0, vers := [1, 0, 0], ops := [4, 0, 0],
           msgs := [[10], [], []] },
    now := 20, timer := some 50, flushed := [], closed := 0 }

/-- The number of steps of the goroutine in a sequence of events. -/
def workCount (evs : List Ev) : Nat := evs.count .work

/-- The goroutine is on its way from the merge loop to a flush of a full batch `target`,
`m` of its own steps away from having made the deliveries: either in the merge loop with
enough messages at hand, or due at `check` or `fanout` with the batch complete, or at
`fanned` with the flush appended to the flushes `fl`. -/
def Sys.Flushing (target : List Proto) (fl : List FlushRec) (m : Nat) (s : Sys) : Prop :=
  0 < s.room.options.BatchNum ∧
  s.w.vers.length = s.room.options.BatchNum.toNat ∧
  s.w.ops.length = s.room.options.BatchNum.toNat ∧
  s.w.msgs.length = s.room.options.BatchNum.toNat ∧
  ((s.w.pc = .drain ∧ s.room.proto.WF ∧ s.w.n ≤ s.room.options.BatchNum.toNat ∧
      s.room.options.BatchNum.toNat ≤ s.w.n + s.room.proto.unread.length ∧
      m = (s.room.options.BatchNum.toNat - s.w.n) + 3 ∧
      (batchOf (s.w.vers.take s.w.n) (s.w.ops.take s.w.n) (s.w.msgs.take s.w.n) ++
        s.room.proto.unread).take s.room.options.BatchNum.toNat = target ∧
      s.flushed = fl) ∨
   ((s.w.pc = .check ∧ m = 2 ∨ s.w.pc = .fanout ∧ m = 1) ∧ s.w.done = true ∧
      s.w.n = s.room.options.BatchNum.toNat ∧
      batchOf (s.w.vers.take s.w.n) (s.w.ops.take s.w.n) (s.w.msgs.take s.w.n) = target ∧
      s.flushed = fl) ∨
   (s.w.pc = .fanned ∧ m = 0 ∧
      ∃ f, s.flushed = fl ++ [f] ∧ f.vers.length = s.room.options.BatchNum.toNat ∧
        batchOf f.vers f.ops f.msgs = target))

/-- Options of the scenario of the specification: ring capacity 4, `BatchNum` 3,
`SignalTime` 50. -/
def exOptions : RoomOptions := { ChannelSize := 8, ProtoSize := 4, BatchNum := 3, SignalTime := 50 }

/-- Events that take a new room to the head of the merge loop with three unread messages:
the goroutine starts and parks in its receive, three messages are pushed, and the
goroutine takes the notification. -/
def exBurst : List Ev :=
  [.Put 1, .Put 2, .work, .work, .work, .Push 1 4 [10], .Push 1 4 [11], .Push 1 4 [12], .work]

/-- The scenario of the specification up to the deadline: subscribers 1 and 2 join, the
goroutine starts and waits, `m1` is published at time 0 and merged, `m2` at time 10 and
merged, the timer fires at time 50 and the goroutine comes back to the head of its loop. -/
def exScenario : List Ev :=
  [.Put 1, .Put 2, .work, .work, .work,
   .Push 1 4 [10], .work, .work, .work, .work, .work, .work,
   .tick 10, .Push 1 4 [11], .work, .work, .work, .work, .work, .work,
   .tick 40, .fire, .work, .work, .work]

/-- Whether time may pass by `d` in a state without anybody being late: the goroutine is
in a fan-out (the deliveries take time), or it is parked in its receive with nothing to
receive and the timer, if pending, is not due before then. -/
def Sys.mayWait (s : Sys) (d : Nat) : Bool :=
  decide (s.w.pc = .fanned) ||
  (decide (s.w.pc = .recv) && !s.w.done && s.room.signal.parked &&
    decide (s.room.signal.handoff = none) && decide (s.room.signal.buf = []) &&
    s.timer.all (fun t => decide (s.now + d ≤ t)))

/-- A sequence of events in which nobody is late and the lock is respected: time passes
only while it may, and no call that takes the write lock (`Push`, `Put`, `Del`) is made
during a fan-out, which holds the read lock. -/
def prompt (e : Env) : Sys → List Ev → Bool
  | _, [] => true
  | s, ev :: evs =>
    (match ev with
     | .tick d => s.mayWait d
     | .Push _ _ _ => decide (s.w.pc ≠ .fanned)
     | .Put _ => decide (s.w.pc ≠ .fanned)
     | .Del _ => decide (s.w.pc ≠ .fanned)
     | _ => true) && prompt e (step e s ev) evs

/-- The publish times of the `Push` calls that returned nil, in call order. -/
def acceptedAt (e : Env) : Sys → List Ev → List Int
  | _, [] => []
  | s, ev :: evs =>
    (match ev with
     | .Push ver operation msg =>
       if (s.room.Push e ver operation msg).2 = none then [s.now] else []
     | _ => []) ++ acceptedAt e (step e s ev) evs

/-- Bounded latency from the publish time, as claimed: in every prompt sequence of events
with fewer than `BatchNum` accepted messages, once more than `SignalTime` has passed
since the `k`-th accepted message was published, that message has been flushed. -/
def BoundedLatency (e : Env) (s0 : Sys) : Prop :=
  ∀ evs : List Ev, prompt e s0 evs = true →
    ((accepted e s0 evs).length : Int) < s0.room.options.BatchNum →
    ∀ (k : Nat) (t : Int), (acceptedAt e s0 evs)[k]? = some t →
      t + s0.room.options.SignalTime < (exec e s0 evs).now →
      k < (exec e s0 evs).delivered.length

/-- A prompt run: `m1` is published at time 0; at the deadline 50 the goroutine is due and
about to fan out when `m2` is published, at time 50; the fan-out of `m1` takes 5 time
units; the goroutine records the cycle start 55 afterwards, merges `m2`, schedules the
timer for 105 and waits; at time 103 `m2` is still not flushed. -/
def exLate : List Ev :=
  [.Put 1, .Put 2, .work, .work, .work,
   .Push 1 4 [10], .work, .work, .work, .work, .work, .work,
   .tick 50, .fire, .work, .work, .work, .work, .work, .work, .work,
   .Push 1 4 [11], .work, .tick 5,
   .work, .work, .work, .work, .work, .work, .work, .work,
   .tick 48]

/-- While the goroutine waits at its receive holding accumulated messages, either the timer
is registered for exactly `last + SignalTime` or a notification is already there. -/
def Sys.Armed (s : Sys) : Prop :=
  s.w.pc = .recv → s.w.done = false → 0 < s.w.n →
    s.timer = some (s.w.last + s.room.options.SignalTime) ∨
    s.room.signal.handoff ≠ none ∨ s.room.signal.buf ≠ []

/-- A room whose wake queue of capacity 1 already holds a notification. -/
def exBusyRoom : Room :=
  { exRoom with signal := { cap := 1, buf := [1], parked := false, handoff := none } }

/-- A new room with the options of the scenario whose goroutine has started (timer due at
50); twenty time units later it is at the head of its loop with nothing accumulated. -/
def exIdle : Sys := exec exEnv (NewRoom exEnv 7 0 exOptions) [.work, .tick 20]

/-- The scenario of the specification a little before the deadline: at time 30 the
goroutine, holding `m1` and `m2`, is woken by a third party and comes to the head of its
loop. -/
def exEarly : List Ev :=
  [.Put 1, .Put 2, .work, .work, .work,
   .Push 1 4 [10], .work, .work, .work, .work, .work, .work,
   .tick 10, .Push 1 4 [11], .work, .work, .work, .work]

/-- No accepted message is discarded, in its weakest reading: whatever has happened, some
continuation exists after which every message accepted so far has been flushed. -/
def NoDiscard (e : Env) (s0 : Sys) : Prop :=
  ∀ evs : List Ev, ∃ evs' : List Ev,
    accepted e s0 evs <+: (exec e s0 (evs ++ evs')).delivered

/-- A shutdown with messages pending: `m1` is published and merged (`n = 1`), the
goroutine reschedules the timer and comes to its receive; `Close` sends `ProtoFinish`;
`m2` is published and stays in the ring; the goroutine receives `ProtoFinish` and
leaves the loop. No `Push` returned an error. -/
def exShutdown : List Ev :=
  [.Put 1, .work, .work, .work,
   .Push 1 4 [10], .work, .work, .work, .work, .work,
   .Close, .Push 1 4 [11], .work]

/-- Misconfigured options: ring capacity 4, `BatchNum` 0, `SignalTime` 0. -/
def exZeroBatch : RoomOptions := { ChannelSize := 8, ProtoSize := 4, BatchNum := 0, SignalTime := 0 }

/-- Misconfigured options: ring capacity 4, `BatchNum` 3, `SignalTime` 0. -/
def exZeroTime : RoomOptions := { ChannelSize := 8, ProtoSize := 4, BatchNum := 3, SignalTime := 0 }

/-- A subscriber joins, the goroutine starts and waits, one message is published, and the
goroutine runs through two iterations. -/
def exOneMessage : List Ev :=
  [.Put 1, .work, .work, .work, .Push 1 4 [10],
   .work, .work, .work, .work, .work, .work, .work, .work, .work]

/-- The instants at which the goroutine read a message from the ring into its batch, in
order: the steps that advance the read cursor. -/
def mergedAt (e : Env) : Sys → List Ev → List Int
  | _, [] => []
  | s, ev :: evs =>
    (match ev with
     | .work => if (Room.push e s).room.proto.rp = s.room.proto.rp + 1 then [s.now] else []
     | _ => []) ++ mergedAt e (step e s ev) evs

/-- Relative to the instants `ts` at which the messages flushed or accumulated so far were
merged: there is one instant per such message, and for each message still accumulated
its merge is not before the cycle start `last` and not more than `SignalTime` ago. -/
def Sys.Timely (ts : List Int) (s : Sys) : Prop :=
  ts.length = s.delivered.length + s.acc.length ∧
  ∀ k t, s.delivered.length ≤ k → ts[k]? = some t →
    s.w.last ≤ t ∧ s.now ≤ t + s.room.options.SignalTime

/-- Options with the least `SignalTime` an `int64` holds. -/
def exMinTime : RoomOptions :=
  { ChannelSize := 8, ProtoSize := 4, BatchNum := 3, SignalTime := -9223372036854775808 }

/-- A run in which nobody is late: the goroutine starts, the timer, due at once, fires, the
goroutine finds nothing, records the cycle start 0 and waits; at time 1 a message is
published, the goroutine merges it and comes back to the head of its loop. -/
def exWrap : List Ev :=
  [.work, .fire, .work, .work, .work, .work, .work, .work, .tick 1, .Push 1 4 [10],
   .work, .work, .work, .work]

/-- Between the deliveries of a flush and the reset of `n`, the batch flushed last is the
entries `0..n-1` of the batch arrays. -/
def Sys.Handed (s : Sys) : Prop :=
  s.w.pc = .fanned →
    ∃ fl f, s.flushed = fl ++ [f] ∧ f.vers = s.w.vers.take s.w.n ∧
      f.ops = s.w.ops.take s.w.n ∧ f.msgs = s.w.msgs.take s.w.n

/-! ## Lemmas on the ring -/

theorem least_nonpos_imp (S d : Int) (h1 : minInt64 ≤ S) (h2 : S ≤ maxInt64) (hd : 0 ≤ d)
    (h : wrap64 (S - sat64 d) ≤ 0) : S ≤ d := by
  unfold wrap64 sat64 minInt64 maxInt64 at *
  split_ifs at h <;> omega

theorem least_exact (S d : Int) (h0 : 0 ≤ S) (h2 : S ≤ maxInt64) (hd : 0 ≤ d) :
    (wrap64 (S - sat64 d) ≤ 0 ↔ S ≤ d) ∧
    (0 < wrap64 (S - sat64 d) → wrap64 (S - sat64 d) = S - d) := by
  unfold wrap64 sat64 minInt64 maxInt64 at *
  split_ifs <;> constructor <;> (try constructor) <;> intros <;> omega

theorem least_zero (d : Int) (hd : 0 ≤ d) : wrap64 (0 - sat64 d) ≤ 0 := by
  unfold wrap64 sat64 minInt64 maxInt64 at *
  split_ifs <;> omega

theorem Ring.wf_Init (num : Int) : (Ring.Init num).WF := by
  simp [Ring.WF, Ring.Init]

theorem Ring.unread_of_empty (r : Ring) (h : r.rp = r.wp) : r.unread = [] := by
  simp [Ring.unread, h]

theorem Ring.unread_GetAdv (r : Ring) (h : r.rp < r.wp) :
    r.unread = r.slot (r.rp % r.num) :: r.GetAdv.unread := by
  have hm : r.wp - r.rp = (r.wp - (r.rp + 1)) + 1 := by omega
  simp only [Ring.unread, Ring.GetAdv, Ring.slot, hm, List.range_succ_eq_map, List.map_cons,
    List.map_map, Nat.add_zero]
  congr 1
  apply List.map_congr_left
  intro k _
  simp only [Function.comp, Nat.succ_eq_add_one]
  congr 2
  omega

theorem Ring.mod_ne_of_lt {a b n : Nat} (h1 : a < b) (h2 : b < a + n) : a % n ≠ b % n := by
  intro h
  have h3 := Nat.sub_mod_eq_zero_of_mod_eq h.symm
  have h4 : (b - a) % n = b - a := Nat.mod_eq_of_lt (by omega)
  omega

theorem Ring.unread_store_SetAdv (r : Ring) (p : Proto) (hwf : r.WF) (h : r.wp - r.rp < r.num) :
    ((r.store (r.wp % r.num) p).SetAdv).unread = r.unread ++ [p] := by
  obtain ⟨h1, _, h3⟩ := hwf
  have hpos : 0 < r.num := by omega
  have hm : r.wp + 1 - r.rp = (r.wp - r.rp) + 1 := by omega
  have hlt : r.wp % r.num < r.data.length := by rw [h3]; exact Nat.mod_lt _ hpos
  simp only [Ring.unread, Ring.SetAdv, Ring.store, Ring.slot, hm, List.range_succ,
    List.map_append, List.map_cons, List.map_nil]
  congr 1
  · apply List.map_congr_left
    intro k hk
    have hk' : k < r.wp - r.rp := List.mem_range.mp hk
    have hne : r.wp % r.num ≠ (r.rp + k) % r.num :=
      fun hh => Ring.mod_ne_of_lt (a := r.rp + k) (b := r.wp) (by omega) (by omega) hh.symm
    simp [List.getD_eq_getElem?_getD, List.getElem?_set_ne hne]
  · have : r.rp + (r.wp - r.rp) = r.wp := by omega
    simp [List.getD_eq_getElem?_getD, this, List.getElem?_set_self hlt]

theorem Ring.wf_store_SetAdv (r : Ring) (i : Nat) (p : Proto) (hwf : r.WF)
    (h : r.wp - r.rp < r.num) : ((r.store i p).SetAdv).WF := by
  obtain ⟨h1, h2, h3⟩ := hwf
  refine ⟨?_, ?_, ?_⟩ <;> simp [Ring.SetAdv, Ring.store] <;> omega

theorem Ring.wf_GetAdv (r : Ring) (hwf : r.WF) (h : r.rp ≠ r.wp) : r.GetAdv.WF := by
  obtain ⟨h1, h2, h3⟩ := hwf
  refine ⟨?_, ?_, ?_⟩ <;> simp [Ring.GetAdv] <;> omega


theorem batchOf_append (a : List Int) (b : List Int) (c : List (List Nat)) (x y : Int)
    (z : List Nat) (hb : b.length = a.length) (hc : c.length = a.length) :
    batchOf (a ++ [x]) (b ++ [y]) (c ++ [z]) = batchOf a b c ++ [⟨x, y, z⟩] := by
  induction a generalizing b c with
  | nil =>
    cases b <;> cases c <;> simp_all [batchOf, List.zipWith3]
  | cons a0 as ih =>
    cases b with
    | nil => simp at hb
    | cons b0 bs =>
      cases c with
      | nil => simp at hc
      | cons c0 cs =>
        have := ih bs cs (by simpa using hb) (by simpa using hc)
        simp_all [batchOf, List.zipWith3]

theorem take_set_succ {α : Type} (l : List α) (n : Nat) (x : α) (h : n < l.length) :
    (l.set n x).take (n + 1) = l.take n ++ [x] := by
  induction l generalizing n with
  | nil => simp at h
  | cons a as ih =>
    cases n with
    | zero => simp
    | succ k =>
      have := ih k (by simpa using h)
      simpa using this


theorem Room.Push_fst_proto (e : Env) (r : Room) (ver operation : Int) (msg : List Nat) :
    (r.Push e ver operation msg).1.proto =
      (match r.proto.Set with
       | .ok i => (r.proto.store i ⟨ver, operation, msg⟩).SetAdv
       | .error _ => r.proto) := by
  unfold Room.Push
  cases r.proto.Set <;> simp only <;> split <;> rfl

theorem Room.Push_snd (e : Env) (r : Room) (ver operation : Int) (msg : List Nat) :
    (r.Push e ver operation msg).2 =
      (match r.proto.Set with
       | .ok _ => none
       | .error err => some err) := by
  unfold Room.Push
  cases r.proto.Set <;> simp only <;> split <;> rfl

theorem Ring.Set_ok (r : Ring) (i : Nat) (h : r.Set = .ok i) :
    r.wp - r.rp < r.num ∧ i = r.wp % r.num := by
  unfold Ring.Set at h
  split at h
  · cases h
  · injection h with h; omega

theorem Ring.Get_ok (r : Ring) (i : Nat) (h : r.Get = .ok i) :
    r.rp ≠ r.wp ∧ i = r.rp % r.num := by
  unfold Ring.Get at h
  split at h
  · cases h
  · injection h with h; exact ⟨by assumption, h.symm⟩

theorem Push_total (e : Env) (s : Sys) (ver operation : Int) (msg : List Nat)
    (hwf : s.room.proto.WF) :
    (step e s (.Push ver operation msg)).room.proto.WF ∧
    (step e s (.Push ver operation msg)).total =
      s.total ++ accepted e s [.Push ver operation msg] := by
  have h1 := Room.Push_fst_proto e s.room ver operation msg
  have h2 := Room.Push_snd e s.room ver operation msg
  simp only [step, Sys.total, Sys.acc, Sys.delivered, accepted, List.append_nil]
  rw [h1, h2]
  cases hs : s.room.proto.Set with
  | error err => simpa using hwf
  | ok i =>
    obtain ⟨hlt, hi⟩ := Ring.Set_ok _ _ hs
    subst hi
    simp only [if_true]
    exact ⟨Ring.wf_store_SetAdv _ _ _ hwf hlt, by
      rw [Ring.unread_store_SetAdv _ _ hwf hlt]; simp⟩

theorem NewRoom_inv (e : Env) (id now : Int) (o : RoomOptions) : (NewRoom e id now o).Inv now := by
  simp [Sys.Inv, NewRoom, Ring.WF, Ring.Init]

theorem push_inv (e : Env) (t0 : Int) (s : Sys) (h : s.Inv t0) : (Room.push e s).Inv t0 := by
  rcases s with ⟨room, w, now, timer, flushed, closed⟩
  rcases w with ⟨pc, n, done, last, vers, ops, msgs⟩
  obtain ⟨hwf, ht, hstart, hcr, harr, htop, hfan, hdone, hlast⟩ := h
  simp only at hwf ht hstart hcr harr htop hfan hdone hlast
  cases pc
  case start =>
    simp only [Room.push, Sys.Inv]
    split <;> simp_all
  case top =>
    have hd0 : done = false := htop rfl
    subst hd0
    simp only [Room.push, Sys.Inv]
    split
    · rename_i hn
      have hl : t0 ≤ last ∧ last ≤ now := by
        rcases hlast with h | h | h | h
        · cases h
        · cases h
        · exact absurd h.2 (by omega)
        · exact h
      split
      · simp_all
      · rename_i hle
        have hle' : wrap64 (room.options.SignalTime - sat64 (now - last)) ≤ 0 := by
          simpa [Sys.least] using hle
        refine ⟨hwf, ht, by simp, by simp, fun _ _ => harr (by simp) (by simp), by simp,
          by simp, ?_, Or.inr (Or.inr (Or.inr hl))⟩
        intro hT _
        exact Or.inr (least_nonpos_imp room.options.SignalTime (now - last) hT.1 hT.2
          (by omega) hle')
    · simp_all
  case recv =>
    simp only [Room.push, Sys.Inv]
    split
    · simp_all
    · split
      · simp_all
      · split <;> simp_all
  case drain =>
    simp only [Room.push, Sys.Inv]
    split
    · simp_all
    · split
      · simp_all
      · rename_i i hget
        obtain ⟨hne, hi⟩ := Ring.Get_ok _ _ hget
        split
        · simp_all
          exact ⟨Ring.wf_GetAdv _ hwf hne, by omega⟩
        · simp_all
  case check =>
    simp only [Room.push, Sys.Inv]
    split <;> simp_all
  case fanout =>
    simp only [Room.push, Sys.Inv]
    split
    · split
      · simp_all
      · simp_all
    · simp_all
  case fanned =>
    simp only [Room.push, Sys.Inv]
    simp_all
  case stopped => exact ⟨hwf, ht, hstart, hcr, harr, htop, hfan, hdone, hlast⟩
  case crashed => exact ⟨hwf, ht, hstart, hcr, harr, htop, hfan, hdone, hlast⟩

theorem push_total (e : Env) (s : Sys) (hwf : s.room.proto.WF)
    (hstart : s.w.pc = .start → s.w.n = 0) :
    (Room.push e s).room.proto.WF ∧ (Room.push e s).total = s.total := by
  rcases s with ⟨room, w, now, timer, flushed, closed⟩
  rcases w with ⟨pc, n, done, last, vers, ops, msgs⟩
  simp only at hwf hstart
  cases pc
  case start =>
    have hn : n = 0 := hstart rfl
    subst hn
    simp only [Room.push, Sys.total, Sys.acc, Sys.delivered]
    split <;> simp [hwf, batchOf, List.zipWith3]
  case top =>
    simp only [Room.push, Sys.total, Sys.acc, Sys.delivered]
    split
    · split <;> simp [hwf]
    · simp [hwf]
  case recv =>
    simp only [Room.push, Sys.total, Sys.acc, Sys.delivered]
    split
    · simp [hwf]
    · split
      · simp [hwf]
      · split <;> simp [hwf]
  case drain =>
    simp only [Room.push, Sys.total, Sys.acc, Sys.delivered]
    split
    · simp [hwf]
    · split
      · simp [hwf]
      · rename_i i hget
        obtain ⟨hne, hi⟩ := Ring.Get_ok _ _ hget
        subst hi
        have hlt : room.proto.rp < room.proto.wp := lt_of_le_of_ne hwf.1 hne
        split
        · rename_i hb
          obtain ⟨hb1, hb2, hb3⟩ := hb
          refine ⟨Ring.wf_GetAdv _ hwf hne, ?_⟩
          simp only [take_set_succ _ _ _ hb1, take_set_succ _ _ _ hb2, take_set_succ _ _ _ hb3]
          rw [batchOf_append _ _ _ _ _ _ (by simp; omega) (by simp; omega),
            Ring.unread_GetAdv _ hlt]
          simp
        · simp [hwf]
  case check =>
    simp only [Room.push, Sys.total, Sys.acc, Sys.delivered]
    split <;> simp [hwf]
  case fanout =>
    simp only [Room.push, Sys.total, Sys.acc, Sys.delivered]
    split
    · split <;> simp [hwf]
    · rename_i hn
      have : n = 0 := by omega
      subst this
      simp [hwf]
  case fanned =>
    simp [Room.push, Sys.total, Sys.acc, Sys.delivered, hwf, batchOf, List.zipWith3]
  case stopped => simp [Room.push, hwf]
  case crashed => simp [Room.push, hwf]

/-! ## Events: frame, invariant, conservation -/

theorem Chan.trySend_frame (ch ch' : Chan) (v : Int) (h : ch.trySend v = some ch') :
    ch'.cap = ch.cap := by
  unfold Chan.trySend at h
  split at h
  · cases h; rfl
  · split at h
    · cases h; rfl
    · cases h

theorem timerFire_frame (e : Env) (s : Sys) :
    (timerFire e s).room.proto = s.room.proto ∧ (timerFire e s).room.chs = s.room.chs ∧
    (timerFire e s).room.options = s.room.options ∧ (timerFire e s).w = s.w ∧
    (timerFire e s).now = s.now ∧ (timerFire e s).flushed = s.flushed ∧
    (timerFire e s).closed = s.closed := by
  unfold timerFire
  split
  · simp
  · split
    · split <;> simp
    · simp

theorem Room.Push_frame (e : Env) (r : Room) (ver operation : Int) (msg : List Nat) :
    (r.Push e ver operation msg).1.chs = r.chs ∧
    (r.Push e ver operation msg).1.options = r.options ∧
    (r.Push e ver operation msg).1.id = r.id := by
  unfold Room.Push
  cases r.proto.Set <;> simp only <;> split <;> simp

theorem Room.Close_frame (e : Env) (r r' : Room) (cs : Multiset Nat)
    (h : r.Close e = some (r', cs)) :
    r'.proto = r.proto ∧ r'.chs = r.chs ∧ r'.options = r.options ∧ r'.id = r.id ∧
    cs = r.chs.val := by
  unfold Room.Close at h
  split at h
  · cases h; simp
  · cases h

/-- Events other than a step of the goroutine and `Push` leave the ring, the goroutine's
locals, the options and the flushes alone, and the clock does not go back. -/
theorem step_env_frame (e : Env) (s : Sys) (ev : Ev) (hw : ev ≠ .work)
    (hp : ∀ ver operation msg, ev ≠ .Push ver operation msg) :
    (step e s ev).room.proto = s.room.proto ∧ (step e s ev).room.options = s.room.options ∧
    (step e s ev).w = s.w ∧ (step e s ev).flushed = s.flushed ∧ s.now ≤ (step e s ev).now := by
  cases ev with
  | tick d => simp [step]
  | fire =>
    obtain ⟨h1, _, h3, h4, h5, h6, _⟩ := timerFire_frame e s
    simp [step, h1, h3, h4, h5, h6]
  | work => exact absurd rfl hw
  | Put ch => simp [step, Room.Put]
  | Del ch => simp [step, Room.Del]
  | Push ver operation msg => exact absurd rfl (hp ver operation msg)
  | Close =>
    simp only [step]
    cases hc : s.room.Close e with
    | none => simp
    | some x =>
      obtain ⟨r', cs⟩ := x
      obtain ⟨h1, _, h3, _, _⟩ := Room.Close_frame e s.room r' cs hc
      simp [h1, h3]

theorem Sys.Inv_congr (t0 : Int) (s s' : Sys) (h : s.Inv t0) (hp : s'.room.proto = s.room.proto)
    (ho : s'.room.options = s.room.options) (hw : s'.w = s.w) (hn : s.now ≤ s'.now) :
    s'.Inv t0 := by
  unfold Sys.Inv at h ⊢
  rw [hp, ho, hw]
  obtain ⟨h1, h2, h3, h4, h5, h6, h7, h8, h9⟩ := h
  refine ⟨h1, by omega, h3, h4, h5, h6, h7, ?_, ?_⟩
  · intro hT hd
    rcases h8 hT hd with h | h
    · exact Or.inl h
    · exact Or.inr (by omega)
  · rcases h9 with h | h | h | h
    · exact Or.inl h
    · exact Or.inr (Or.inl h)
    · exact Or.inr (Or.inr (Or.inl h))
    · exact Or.inr (Or.inr (Or.inr ⟨h.1, by omega⟩))

theorem Sys.total_congr (s s' : Sys) (hp : s'.room.proto = s.room.proto) (hw : s'.w = s.w)
    (hf : s'.flushed = s.flushed) : s'.total = s.total := by
  simp [Sys.total, Sys.acc, Sys.delivered, hp, hw, hf]

theorem step_inv (e : Env) (t0 : Int) (s : Sys) (ev : Ev) (h : s.Inv t0) :
    (step e s ev).Inv t0 := by
  by_cases hw : ev = .work
  · subst hw; exact push_inv e t0 s h
  · by_cases hp : ∃ ver operation msg, ev = .Push ver operation msg
    · obtain ⟨ver, operation, msg, rfl⟩ := hp
      have hP := (Push_total e s ver operation msg h.1).1
      have hf := Room.Push_frame e s.room ver operation msg
      unfold Sys.Inv at h ⊢
      obtain ⟨h1, h2, h3, h4, h5, h6, h7, h8, h9⟩ := h
      exact ⟨hP, h2, h3, by simpa [step, hf.2.1] using h4, by simpa [step, hf.2.1] using h5,
        h6, h7, by simpa [step, hf.2.1] using h8, h9⟩
    · have hp' : ∀ ver operation msg, ev ≠ .Push ver operation msg :=
        fun a b c hh => hp ⟨a, b, c, hh⟩
      obtain ⟨f1, f2, f3, _, f5⟩ := step_env_frame e s ev hw hp'
      exact Sys.Inv_congr t0 s _ h f1 f2 f3 f5

theorem step_total (e : Env) (s : Sys) (ev : Ev) (hwf : s.room.proto.WF)
    (hstart : s.w.pc = .start → s.w.n = 0) :
    (step e s ev).total = s.total ++ accepted e s [ev] := by
  by_cases hw : ev = .work
  · subst hw; simpa [accepted, step] using (push_total e s hwf hstart).2
  · by_cases hp : ∃ ver operation msg, ev = .Push ver operation msg
    · obtain ⟨ver, operation, msg, rfl⟩ := hp
      exact (Push_total e s ver operation msg hwf).2
    · have hp' : ∀ ver operation msg, ev ≠ .Push ver operation msg :=
        fun a b c hh => hp ⟨a, b, c, hh⟩
      obtain ⟨f1, _, f3, f4, _⟩ := step_env_frame e s ev hw hp'
      rw [Sys.total_congr s _ f1 f3 f4]
      cases ev <;> simp_all [accepted]

theorem exec_cons (e : Env) (s : Sys) (ev : Ev) (evs : List Ev) :
    exec e s (ev :: evs) = exec e (step e s ev) evs := rfl

theorem exec_append (e : Env) (s : Sys) (evs evs' : List Ev) :
    exec e s (evs ++ evs') = exec e (exec e s evs) evs' := by
  simp [exec, List.foldl_append]

theorem exec_inv (e : Env) (t0 : Int) (s : Sys) (evs : List Ev) (h : s.Inv t0) :
    (exec e s evs).Inv t0 := by
  induction evs generalizing s with
  | nil => exact h
  | cons ev evs ih => exact ih _ (step_inv e t0 s ev h)

theorem accepted_cons (e : Env) (s : Sys) (ev : Ev) (evs : List Ev) :
    accepted e s (ev :: evs) = accepted e s [ev] ++ accepted e (step e s ev) evs := by
  simp [accepted]

theorem exec_total (e : Env) (t0 : Int) (s : Sys) (evs : List Ev) (h : s.Inv t0) :
    (exec e s evs).total = s.total ++ accepted e s evs := by
  induction evs generalizing s with
  | nil => simp [exec, accepted]
  | cons ev evs ih =>
    rw [exec_cons, ih _ (step_inv e t0 s ev h), step_total e s ev h.1 (fun hh => (h.2.2.1 hh).1)]
    simp [accepted]

theorem fanOut_ch (e : Env) (k : Nat) (chs : Finset Nat) (vers ops : List Int)
    (msgs : List (List Nat)) : (fanOut e k chs vers ops msgs).map PushsCall.ch = chs.val := by
  simp [fanOut, Multiset.map_map, Function.comp]

theorem fanOut_mem (e : Env) (k : Nat) (chs : Finset Nat) (vers ops : List Int)
    (msgs : List (List Nat)) (c : PushsCall) (h : c ∈ fanOut e k chs vers ops msgs) :
    c.ch ∈ chs ∧ c.vers = vers ∧ c.ops = ops ∧ c.msgs = msgs ∧ c.failed = e.PushsErr k c.ch := by
  simp only [fanOut, Multiset.mem_map] at h
  obtain ⟨ch, hch, rfl⟩ := h
  exact ⟨hch, rfl, rfl, rfl, rfl⟩

/-- The flushes after a step of the goroutine: as before, or one more at `fanout`. -/
theorem push_flushed (e : Env) (s : Sys) :
    (Room.push e s).flushed = s.flushed ∨
    (s.w.pc = .fanout ∧ 0 < s.w.n ∧ s.w.n ≤ s.w.vers.length ∧ s.w.n ≤ s.w.ops.length ∧
      s.w.n ≤ s.w.msgs.length ∧
      (Room.push e s).flushed = s.flushed ++
        [{ time := s.now, last := s.w.last, vers := s.w.vers.take s.w.n,
           ops := s.w.ops.take s.w.n, msgs := s.w.msgs.take s.w.n,
           calls := fanOut e s.flushed.length s.room.chs (s.w.vers.take s.w.n)
             (s.w.ops.take s.w.n) (s.w.msgs.take s.w.n) }]) := by
  rcases s with ⟨room, w, now, timer, flushed, closed⟩
  rcases w with ⟨pc, n, done, last, vers, ops, msgs⟩
  cases pc <;> simp only [Room.push]
  case start => split <;> simp
  case top => split <;> [split <;> simp; simp]
  case recv => split <;> [simp; (split <;> [simp; (split <;> simp)])]
  case drain => split <;> [simp; (split <;> [simp; (split <;> simp)])]
  case check => split <;> simp
  case fanout =>
    split
    · split
      · rename_i h1 h2
        exact Or.inr ⟨trivial, h1, h2.1, h2.2.1, h2.2.2, rfl⟩
      · simp
    · simp
  all_goals simp

theorem push_options (e : Env) (s : Sys) : (Room.push e s).room.options = s.room.options := by
  rcases s with ⟨room, w, now, timer, flushed, closed⟩
  rcases w with ⟨pc, n, done, last, vers, ops, msgs⟩
  cases pc <;> simp only [Room.push]
  case start => split <;> simp
  case top => split <;> [split <;> simp; simp]
  case recv => split <;> [simp; (split <;> [simp; (split <;> simp)])]
  case drain => split <;> [simp; (split <;> [simp; (split <;> simp)])]
  case check => split <;> simp
  case fanout => split <;> [split <;> simp; simp]

theorem step_options (e : Env) (s : Sys) (ev : Ev) :
    (step e s ev).room.options = s.room.options := by
  cases ev with
  | work => exact push_options e s
  | Push ver operation msg => exact (Room.Push_frame e s.room ver operation msg).2.1
  | tick d => exact (step_env_frame e s _ (by simp) (by simp)).2.1
  | fire => exact (step_env_frame e s _ (by simp) (by simp)).2.1
  | Put ch => exact (step_env_frame e s _ (by simp) (by simp)).2.1
  | Del ch => exact (step_env_frame e s _ (by simp) (by simp)).2.1
  | Close => exact (step_env_frame e s _ (by simp) (by simp)).2.1

theorem step_flushed_env (e : Env) (s : Sys) (ev : Ev) (hw : ev ≠ .work) :
    (step e s ev).flushed = s.flushed := by
  cases ev with
  | work => exact absurd rfl hw
  | Push ver operation msg => rfl
  | tick d => exact (step_env_frame e s _ (by simp) (by simp)).2.2.2.1
  | fire => exact (step_env_frame e s _ (by simp) (by simp)).2.2.2.1
  | Put ch => exact (step_env_frame e s _ (by simp) (by simp)).2.2.2.1
  | Del ch => exact (step_env_frame e s _ (by simp) (by simp)).2.2.2.1
  | Close => exact (step_env_frame e s _ (by simp) (by simp)).2.2.2.1

theorem step_logOk (e : Env) (t0 : Int) (s : Sys) (ev : Ev) (h : s.Inv t0) (hl : s.LogOk t0) :
    (step e s ev).LogOk t0 := by
  unfold Sys.LogOk at hl ⊢
  rw [step_options]
  by_cases hw : ev = .work
  · subst hw
    rcases push_flushed e s with hf | ⟨hpc, hn, hv, ho, hm, hf⟩
    · simp only [step]; rw [hf]; exact hl
    · simp only [step]; rw [hf]
      intro f hfm
      rcases List.mem_append.mp hfm with hfm | hfm
      · exact hl f hfm
      · simp only [List.mem_singleton] at hfm
        subst hfm
        obtain ⟨-, -, -, -, h5, -, h7, h8, h9⟩ := h
        have h5' := h5 (by simp [hpc]) (by simp [hpc])
        have h7' := h7 (Or.inl hpc)
        have h8' := fun hT => h8 hT h7'
        have h9' : t0 ≤ s.w.last ∧ s.w.last ≤ s.now := by
          rcases h9 with h | h | h | h
          · simp [hpc] at h
          · simp [hpc] at h
          · simp [hpc] at h
          · exact h
        refine ⟨?_, ?_, ?_, ?_, ?_, ?_, h9'.1, h9'.2, ?_⟩
        · simp; omega
        · simp; omega
        · simp; omega
        · simp; omega
        · intro c hc
          obtain ⟨-, a, b, c', -⟩ := fanOut_mem _ _ _ _ _ _ c hc
          exact ⟨a, b, c'⟩
        · rw [fanOut_ch]; exact s.room.chs.nodup
        · simp only [List.length_take]
          intro hT hlt
          rcases h8' hT with h | h
          · omega
          · omega
  · rw [step_flushed_env e s ev hw]; exact hl

theorem exec_logOk (e : Env) (t0 : Int) (s : Sys) (evs : List Ev) (h : s.Inv t0)
    (hl : s.LogOk t0) : (exec e s evs).LogOk t0 := by
  induction evs generalizing s with
  | nil => exact hl
  | cons ev evs ih => exact ih _ (step_inv e t0 s ev h) (step_logOk e t0 s ev h hl)

theorem NewRoom_logOk (e : Env) (id now : Int) (o : RoomOptions) :
    (NewRoom e id now o).LogOk now := by
  intro f hf
  simp [NewRoom] at hf

theorem exec_options (e : Env) (s : Sys) (evs : List Ev) :
    (exec e s evs).room.options = s.room.options := by
  induction evs generalizing s with
  | nil => rfl
  | cons ev evs ih => rw [exec_cons, ih, step_options]

/-- C2. Overflow is rejected without corruption: when the ring is full (`Set` returns an
error), `Push` returns that error and leaves the ring as it was, slots and cursors, so
the unread messages are the ones committed before, in order. With a ring of capacity 1,
the first `Push` on a new room returns nil, the second returns `ErrRingFull`, and the
ring then holds exactly the first message. -/
theorem Push_full_rejected (e : Env) (r : Room) (ver operation : Int) (msg : List Nat)
    (err : RingErr) (id now : Int) (o : RoomOptions) (ver2 operation2 : Int) (msg2 : List Nat)
    (h : r.proto.Set = .error err) :
    (r.Push e ver operation msg).2 = some err ∧
    (r.Push e ver operation msg).1.proto = r.proto ∧
    (r.Push e ver operation msg).1.proto.unread = r.proto.unread ∧
    ((NewRoom e id now { o with ProtoSize := 1 }).room.Push e ver operation msg).2 = none ∧
    ((((NewRoom e id now { o with ProtoSize := 1 }).room.Push e ver operation msg).1).Push e
      ver2 operation2 msg2).2 = some .ErrRingFull ∧
    ((((NewRoom e id now { o with ProtoSize := 1 }).room.Push e ver operation msg).1).Push e
      ver2 operation2 msg2).1.proto.unread = [⟨ver, operation, msg⟩] := by
  have h1 := Room.Push_fst_proto e r ver operation msg
  have h2 := Room.Push_snd e r ver operation msg
  rw [h] at h1 h2
  refine ⟨h2, h1, by rw [h1], ?_, ?_, ?_⟩
  · rw [Room.Push_snd]; simp [NewRoom, Ring.Init, Ring.Set]
  · rw [Room.Push_snd, Room.Push_fst_proto]
    simp [NewRoom, Ring.Init, Ring.Set, Ring.store, Ring.SetAdv]
  · rw [Room.Push_fst_proto, Room.Push_fst_proto]
    simp [NewRoom, Ring.Init, Ring.Set, Ring.store, Ring.SetAdv, Ring.unread, Ring.slot,
      List.range_succ]

theorem Push_full_rejected_witness :
    exFullRoom.proto.Set = .error .ErrRingFull ∧
    (exFullRoom.Push exEnv 2 5 [11]).2 = some .ErrRingFull ∧
    (exFullRoom.Push exEnv 2 5 [11]).1.proto = exFullRoom.proto :=
  ⟨rfl,
   (Push_full_rejected exEnv exFullRoom 2 5 [11] .ErrRingFull 0 0 ⟨0, 0, 0, 0⟩ 0 0 [] rfl).1,
   (Push_full_rejected exEnv exFullRoom 2 5 [11] .ErrRingFull 0 0 ⟨0, 0, 0, 0⟩ 0 0 [] rfl).2.1⟩

/-- C6. Join is idempotent: `Put(ch)` twice leaves the room that one `Put(ch)` leaves; on
a new room `Online()` is then 1; and `Put` of a subscriber already present leaves
`Online()` unchanged (an absent one raises it by one). -/
theorem Put_idempotent (e : Env) (id now : Int) (o : RoomOptions) (r : Room) (ch : Nat) :
    (r.Put ch).Put ch = r.Put ch ∧
    (((NewRoom e id now o).room.Put ch).Put ch).Online = 1 ∧
    (r.Put ch).Online = (if ch ∈ r.chs then r.Online else r.Online + 1) := by
  refine ⟨?_, ?_, ?_⟩
  · simp [Room.Put]
  · simp [Room.Put, Room.Online, NewRoom]
  · simp [Room.Put, Room.Online, Finset.card_insert_eq_ite]

/-- C7. Leave removes exactly the given subscriber: after `Del(ch)` the set is the former
set without `ch`, every other field of the room is as before, `Online()` is one less if
`ch` was present and unchanged if it was absent (then the room is unchanged), and
`Put(ch)` then `Del(ch)` on a new room gives `Online() = 0`. -/
theorem Del_removes_exactly (e : Env) (id now : Int) (o : RoomOptions) (r : Room) (ch : Nat) :
    (∀ x, x ∈ (r.Del ch).chs ↔ (x ∈ r.chs ∧ x ≠ ch)) ∧
    (r.Del ch).proto = r.proto ∧ (r.Del ch).signal = r.signal ∧
    (r.Del ch).Online + (if ch ∈ r.chs then 1 else 0) = r.Online ∧
    (if ch ∈ r.chs then True else r.Del ch = r) ∧
    (((NewRoom e id now o).room.Put ch).Del ch).Online = 0 := by
  refine ⟨?_, rfl, rfl, ?_, ?_, ?_⟩
  · intro x; simp [Room.Del, Finset.mem_erase, and_comm]
  · by_cases hc : ch ∈ r.chs
    · have := Finset.card_pos.mpr ⟨ch, hc⟩
      simp [Room.Del, Room.Online, hc, Finset.card_erase_of_mem]; omega
    · simp [Room.Del, Room.Online, hc]
  · by_cases hc : ch ∈ r.chs
    · simp [hc]
    · simp [hc, Room.Del]
  · simp [Room.Put, Room.Del, Room.Online, NewRoom]

/-- C8. Shutdown closes every joined subscriber exactly once: `Close` waits exactly while
the wake queue is full and the goroutine is not parked in its receive; once the send of
`ProtoFinish` has gone through, it calls `ch.Close()` once for each subscriber in the set
and for no other, in particular not for a subscriber removed by `Del` before. -/
theorem Close_closes_each_once (e : Env) (r : Room) (x : Nat) :
    (Room.Close e r = none ↔ (r.signal.parked = false ∧ r.signal.cap ≤ r.signal.buf.length)) ∧
    (∀ r' cs, Room.Close e r = some (r', cs) →
      ∀ ch, cs.count ch = if ch ∈ r.chs then 1 else 0) ∧
    (∀ r' cs, Room.Close e (r.Del x) = some (r', cs) → cs.count x = 0) := by
  refine ⟨?_, ?_, ?_⟩
  · unfold Room.Close Chan.trySend
    by_cases hp : r.signal.parked = true
    · simp [hp]
    · by_cases hl : r.signal.buf.length < r.signal.cap
      · simp [hp, hl]
      · simp [hp, hl]; omega
  · intro r' cs h ch
    obtain ⟨-, -, -, -, hcs⟩ := Room.Close_frame e r r' cs h
    subst hcs
    exact Multiset.count_eq_of_nodup r.chs.nodup
  · intro r' cs h
    obtain ⟨-, -, -, -, hcs⟩ := Room.Close_frame e (r.Del x) r' cs h
    subst hcs
    have hx : x ∉ (r.Del x).chs := by simp [Room.Del]
    exact Multiset.count_eq_zero_of_not_mem hx

theorem Close_closes_each_once_witness :
    (Room.Close exEnv exRoom).isSome = true ∧
    (∀ ch, exRoom.chs.val.count ch = if ch ∈ exRoom.chs then 1 else 0) :=
  ⟨by decide, (Close_closes_each_once exEnv exRoom 0).2.1 _ _ rfl⟩

theorem push_stopped (e : Env) (s : Sys) (h : s.w.pc = .stopped) : Room.push e s = s := by
  rcases s with ⟨room, w, now, timer, flushed, closed⟩
  rcases w with ⟨pc, n, done, last, vers, ops, msgs⟩
  simp only at h
  subst h
  rfl

theorem timerFire_timer (e : Env) (s : Sys) (h : s.timer = none) : (timerFire e s).timer = none := by
  unfold timerFire
  simp [h]

/-- Once the goroutine has stopped, no event changes its locals, the read cursor of the
ring or the flushes, and a deleted timer registration stays deleted. -/
theorem step_stopped (e : Env) (s : Sys) (ev : Ev) (h : s.w.pc = .stopped) :
    (step e s ev).w = s.w ∧ (step e s ev).flushed = s.flushed ∧
    (step e s ev).room.proto.rp = s.room.proto.rp ∧
    (s.timer = none → (step e s ev).timer = none) := by
  cases ev with
  | work => simp only [step]; rw [push_stopped e s h]; simp
  | Push ver operation msg =>
    refine ⟨rfl, rfl, ?_, fun ht => ht⟩
    simp only [step]
    rw [Room.Push_fst_proto]
    cases s.room.proto.Set <;> simp [Ring.store, Ring.SetAdv]
  | tick d => exact ⟨rfl, rfl, rfl, fun ht => ht⟩
  | fire =>
    obtain ⟨h1, _, _, h4, _, h6, _⟩ := timerFire_frame e s
    exact ⟨h4, h6, by simp [step, h1], fun ht => timerFire_timer e s ht⟩
  | Put ch => exact ⟨rfl, rfl, rfl, fun ht => ht⟩
  | Del ch => exact ⟨rfl, rfl, rfl, fun ht => ht⟩
  | Close =>
    obtain ⟨f1, _, f3, f4, _⟩ := step_env_frame e s .Close (by simp) (by simp)
    refine ⟨f3, f4, by rw [f1], ?_⟩
    intro ht
    simp only [step]
    cases hc : s.room.Close e with
    | none => exact ht
    | some x => exact ht

theorem exec_stopped (e : Env) (s : Sys) (evs : List Ev) (h : s.w.pc = .stopped) :
    (exec e s evs).w = s.w ∧ (exec e s evs).flushed = s.flushed ∧
    (exec e s evs).room.proto.rp = s.room.proto.rp ∧
    (s.timer = none → (exec e s evs).timer = none) := by
  induction evs generalizing s with
  | nil => exact ⟨rfl, rfl, rfl, fun ht => ht⟩
  | cons ev evs ih =>
    obtain ⟨a, b, c, d⟩ := step_stopped e s ev h
    obtain ⟨a', b', c', d'⟩ := ih (step e s ev) (by rw [a]; exact h)
    rw [exec_cons]
    exact ⟨by rw [a', a], by rw [b', b], by rw [c', c], fun ht => d' (d ht)⟩

/-- What the goroutine does with a received value: stop on anything but `ProtoReady`. -/
theorem push_recv (e : Env) (s : Sys) (v : Int) (ch : Chan) (hpc : s.w.pc = .recv)
    (hd : s.w.done = false) (hr : s.room.signal.recv = (some v, ch)) :
    Room.push e s =
      if v ≠ e.ProtoReady then
        { s with room := { s.room with signal := ch }, timer := none,
                 w := { s.w with pc := .stopped } }
      else { s with room := { s.room with signal := ch }, w := { s.w with pc := .drain } } := by
  rcases s with ⟨room, w, now, timer, flushed, closed⟩
  rcases w with ⟨pc, n, done, last, vers, ops, msgs⟩
  simp only at hpc hd hr
  subst hpc hd
  simp only [Room.push, hr]
  simp

/-- C9. Terminal notification stops the worker: when the goroutine, waiting at its receive,
takes from the wake queue a value other than `ProtoReady`, that step leaves the loop: it
reads nothing from the ring, delivers nothing and deletes the timer registration; after
it no sequence of events changes the goroutine's locals, the read cursor of the ring or
the flushes, and the registration stays deleted. A received `ProtoReady` takes the
goroutine to the merge loop and leaves the registration alone. -/
theorem terminal_stops_worker (e : Env) (s : Sys) (v : Int) (ch : Chan) (evs : List Ev)
    (hpc : s.w.pc = .recv) (hd : s.w.done = false) (hr : s.room.signal.recv = (some v, ch)) :
    (v ≠ e.ProtoReady →
      (Room.push e s).w.pc = .stopped ∧ (Room.push e s).timer = none ∧
      (Room.push e s).room.proto = s.room.proto ∧ (Room.push e s).flushed = s.flushed ∧
      (exec e (Room.push e s) evs).w.pc = .stopped ∧
      (exec e (Room.push e s) evs).flushed = s.flushed ∧
      (exec e (Room.push e s) evs).room.proto.rp = s.room.proto.rp ∧
      (exec e (Room.push e s) evs).timer = none) ∧
    (v = e.ProtoReady →
      (Room.push e s).w.pc = .drain ∧ (Room.push e s).timer = s.timer ∧
      (Room.push e s).flushed = s.flushed) := by
  have hp := push_recv e s v ch hpc hd hr
  constructor
  · intro hv
    rw [if_pos hv] at hp
    have h1 : (Room.push e s).w.pc = .stopped := by rw [hp]
    have h2 : (Room.push e s).timer = none := by rw [hp]
    have h3 : (Room.push e s).room.proto = s.room.proto := by rw [hp]
    have h4 : (Room.push e s).flushed = s.flushed := by rw [hp]
    obtain ⟨a, b, c, d⟩ := exec_stopped e (Room.push e s) evs h1
    exact ⟨h1, h2, h3, h4, by rw [a, h1], by rw [b, h4], by rw [c, h3], d h2⟩
  · intro hv
    rw [if_neg (by simpa using hv)] at hp
    rw [hp]
    exact ⟨rfl, rfl, rfl⟩

theorem terminal_stops_worker_witness :
    (Room.push exEnv exFinish).w.pc = .stopped ∧ (Room.push exEnv exFinish).timer = none ∧
    (exec exEnv (Room.push exEnv exFinish) [.Push 1 4 [12], .fire, .work, .tick 100, .work]).flushed
      = exFinish.flushed :=
  have h := (terminal_stops_worker exEnv exFinish 0
    { cap := 1, buf := [], parked := false, handoff := none }
    [.Push 1 4 [12], .fire, .work, .tick 100, .work] rfl rfl rfl).1 (by decide)
  ⟨h.1, h.2.1, h.2.2.2.2.2.1⟩

/-- C10. Delivery failures never abort a flush: at `fanout` with a non-empty batch, the
step appends one flush whose calls are one `Pushs` per subscriber in the set, each with
the slices `vers[:n]`, `ops[:n]`, `msgs[:n]`; whatever results the `Pushs` calls return,
the goroutine's locals, the room, the timer and the clock after the step are the same,
and the next step resets `n` to 0 and `done` to false at the head of the loop. -/
theorem flush_ignores_errors (e : Env) (results : Nat → Nat → Bool) (s : Sys)
    (hpc : s.w.pc = .fanout) (hn : 0 < s.w.n)
    (hb : s.w.n ≤ s.w.vers.length ∧ s.w.n ≤ s.w.ops.length ∧ s.w.n ≤ s.w.msgs.length) :
    (∃ f, (Room.push e s).flushed = s.flushed ++ [f] ∧
      f.calls.map PushsCall.ch = s.room.chs.val ∧
      (∀ ch, (f.calls.map PushsCall.ch).count ch = if ch ∈ s.room.chs then 1 else 0) ∧
      (∀ c ∈ f.calls, c.vers = s.w.vers.take s.w.n ∧ c.ops = s.w.ops.take s.w.n ∧
        c.msgs = s.w.msgs.take s.w.n ∧ c.failed = e.PushsErr s.flushed.length c.ch)) ∧
    (Room.push { e with PushsErr := results } s).w = (Room.push e s).w ∧
    (Room.push { e with PushsErr := results } s).room = (Room.push e s).room ∧
    (Room.push { e with PushsErr := results } s).timer = (Room.push e s).timer ∧
    (Room.push { e with PushsErr := results } s).now = (Room.push e s).now ∧
    (Room.push e s).w.pc = .fanned ∧ (Room.push e s).w.n = s.w.n ∧
    (Room.push e (Room.push e s)).w.n = 0 ∧
    (Room.push e (Room.push e s)).w.done = false ∧
    (Room.push e (Room.push e s)).w.pc = .top := by
  rcases s with ⟨room, w, now, timer, flushed, closed⟩
  rcases w with ⟨pc, n, done, last, vers, ops, msgs⟩
  simp only at hpc hn hb
  subst hpc
  refine ⟨⟨{ time := now, last := last, vers := vers.take n, ops := ops.take n,
              msgs := msgs.take n,
              calls := fanOut e flushed.length room.chs (vers.take n) (ops.take n)
                (msgs.take n) }, ?_, ?_, ?_, ?_⟩, ?_⟩
  · simp only [Room.push, if_pos hn, if_pos hb]
  · exact fanOut_ch _ _ _ _ _ _
  · intro ch
    rw [fanOut_ch]
    exact Multiset.count_eq_of_nodup room.chs.nodup
  · intro c hc
    obtain ⟨-, a, b, c', d⟩ := fanOut_mem _ _ _ _ _ _ c hc
    exact ⟨a, b, c', d⟩
  · simp [Room.push, hn, hb]

theorem flush_ignores_errors_witness :
    (∃ f, (Room.push exEnv exDue).flushed = exDue.flushed ++ [f] ∧
      f.calls.map PushsCall.ch = exDue.room.chs.val) ∧
    (Room.push { exEnv with PushsErr := fun _ _ => true } exDue).w = (Room.push exEnv exDue).w :=
  have h := flush_ignores_errors exEnv (fun _ _ => true) exDue rfl (by decide) (by decide)
  ⟨h.1.imp (fun _ hf => ⟨hf.1, hf.2.1⟩), h.2.1⟩

theorem batchOf_length (a : List Int) (b : List Int) (c : List (List Nat))
    (hb : b.length = a.length) (hc : c.length = a.length) : (batchOf a b c).length = a.length := by
  induction a generalizing b c with
  | nil => cases b <;> cases c <;> simp_all [batchOf, List.zipWith3]
  | cons a0 as ih =>
    cases b with
    | nil => simp at hb
    | cons b0 bs =>
      cases c with
      | nil => simp at hc
      | cons c0 cs =>
        have := ih bs cs (by simpa using hb) (by simpa using hc)
        simp_all [batchOf, List.zipWith3]

theorem Ring.unread_length (r : Ring) : r.unread.length = r.wp - r.rp := by
  simp [Ring.unread]

/-- A step of the goroutine on its way to a full flush brings it one step nearer. -/
theorem push_flushing (e : Env) (target : List Proto) (fl : List FlushRec) (m : Nat) (s : Sys)
    (h : s.Flushing target fl (m + 1)) : (Room.push e s).Flushing target fl m := by
  rcases s with ⟨room, w, now, timer, flushed, closed⟩
  rcases w with ⟨pc, n, done, last, vers, ops, msgs⟩
  obtain ⟨hB, hv, ho, hm, hcase⟩ := h
  simp only at hB hv ho hm hcase
  rcases hcase with ⟨hpc, hwf, hn, hcnt, hmm, htar, hfl⟩ | ⟨hpcm, hd, hn, htar, hfl⟩ |
    ⟨hpc, hmm, _⟩
  · subst hpc
    have hlen : (batchOf (vers.take n) (ops.take n) (msgs.take n)).length = n := by
      rw [batchOf_length _ _ _ (by simp; omega) (by simp; omega)]; simp; omega
    by_cases hfull : (n : Int) ≥ room.options.BatchNum
    · have hnB : n = room.options.BatchNum.toNat := by omega
      unfold Sys.Flushing
      simp only [Room.push, if_pos hfull]
      refine ⟨hB, hv, ho, hm, Or.inr (Or.inl ?_)⟩
      refine ⟨Or.inl ⟨trivial, by omega⟩, trivial, hnB, ?_, hfl⟩
      rw [← htar, List.take_append_of_le_length (by omega)]
      exact (List.take_of_length_le (by omega)).symm
    · have hne : room.proto.rp ≠ room.proto.wp := by
        rw [Ring.unread_length] at hcnt; omega
      have hlt : room.proto.rp < room.proto.wp := lt_of_le_of_ne hwf.1 hne
      have hget : room.proto.Get = .ok (room.proto.rp % room.proto.num) := by
        simp [Ring.Get, hne]
      have hb : n < vers.length ∧ n < ops.length ∧ n < msgs.length := by
        refine ⟨?_, ?_, ?_⟩ <;> omega
      unfold Sys.Flushing
      simp only [Room.push, if_neg hfull, hget, if_pos hb]
      refine ⟨hB, by simpa using hv, by simpa using ho, by simpa using hm, Or.inl ?_⟩
      refine ⟨trivial, Ring.wf_GetAdv _ hwf hne, by omega, ?_, by omega, ?_, hfl⟩
      · have := Ring.unread_GetAdv _ hlt
        rw [this] at hcnt
        simp only [List.length_cons] at hcnt
        omega
      · rw [take_set_succ _ _ _ hb.1, take_set_succ _ _ _ hb.2.1, take_set_succ _ _ _ hb.2.2,
          batchOf_append _ _ _ _ _ _ (by simp; omega) (by simp; omega), ← htar,
          Ring.unread_GetAdv _ hlt]
        simp
  · subst hd
    rcases hpcm with ⟨hpc, hmm⟩ | ⟨hpc, hmm⟩
    · subst hpc
      unfold Sys.Flushing
      simp only [Room.push, if_true]
      refine ⟨hB, hv, ho, hm, Or.inr (Or.inl ?_)⟩
      exact ⟨Or.inr ⟨trivial, by omega⟩, trivial, hn, htar, hfl⟩
    · subst hpc
      have hpos : 0 < n := by omega
      have hb : n ≤ vers.length ∧ n ≤ ops.length ∧ n ≤ msgs.length := by
        refine ⟨?_, ?_, ?_⟩ <;> omega
      unfold Sys.Flushing
      simp only [Room.push, if_pos hpos, if_pos hb]
      refine ⟨hB, hv, ho, hm, Or.inr (Or.inr ?_)⟩
      refine ⟨trivial, by omega, _, by rw [hfl], ?_, htar⟩
      simp; omega
  · omega

/-- Events other than a step of the goroutine leave it as near to its flush as it was. -/
theorem step_env_flushing (e : Env) (target : List Proto) (fl : List FlushRec) (m : Nat)
    (s : Sys) (ev : Ev) (hw : ev ≠ .work) (h : s.Flushing target fl m) :
    (step e s ev).Flushing target fl m := by
  by_cases hp : ∃ ver operation msg, ev = .Push ver operation msg
  · obtain ⟨ver, operation, msg, rfl⟩ := hp
    have hf := Room.Push_frame e s.room ver operation msg
    have hpr := Room.Push_fst_proto e s.room ver operation msg
    obtain ⟨hB, hv, ho, hm, hcase⟩ := h
    unfold Sys.Flushing
    simp only [step, hf.2.1]
    refine ⟨hB, hv, ho, hm, ?_⟩
    rcases hcase with ⟨hpc, hwf, hn, hcnt, hmm, htar, hfl⟩ | h2 | h3
    · refine Or.inl ⟨hpc, (Push_total e s ver operation msg hwf).1, hn, ?_, hmm, ?_, hfl⟩
      · rw [hpr]
        cases hs : s.room.proto.Set with
        | error err => exact hcnt
        | ok i =>
          obtain ⟨hlt, hi⟩ := Ring.Set_ok _ _ hs
          subst hi
          simp only
          rw [Ring.unread_store_SetAdv _ _ hwf hlt]
          simp; omega
      · rw [hpr]
        cases hs : s.room.proto.Set with
        | error err => exact htar
        | ok i =>
          obtain ⟨hlt, hi⟩ := Ring.Set_ok _ _ hs
          subst hi
          simp only
          rw [Ring.unread_store_SetAdv _ _ hwf hlt, ← htar, ← List.append_assoc,
            List.take_append_of_le_length]
          rw [List.length_append, batchOf_length _ _ _ (by simp; omega) (by simp; omega)]
          simp; omega
    · exact Or.inr (Or.inl h2)
    · exact Or.inr (Or.inr h3)
  · have hp' : ∀ ver operation msg, ev ≠ .Push ver operation msg :=
      fun a b c hh => hp ⟨a, b, c, hh⟩
    obtain ⟨f1, f2, f3, f4, _⟩ := step_env_frame e s ev hw hp'
    unfold Sys.Flushing at h ⊢
    rw [f1, f2, f3, f4]
    exact h

theorem workCount_cons_work (evs : List Ev) : workCount (.work :: evs) = workCount evs + 1 := by
  simp [workCount]

theorem workCount_cons_env (ev : Ev) (evs : List Ev) (h : ev ≠ .work) :
    workCount (ev :: evs) = workCount evs := by
  simp [workCount, List.count_cons, h]

theorem exec_flushing (e : Env) (target : List Proto) (fl : List FlushRec) (m : Nat) (s : Sys)
    (evs : List Ev) (h : s.Flushing target fl m) (hk : workCount evs ≤ m) :
    (exec e s evs).Flushing target fl (m - workCount evs) := by
  induction evs generalizing s m with
  | nil => simpa [exec, workCount] using h
  | cons ev evs ih =>
    rw [exec_cons]
    by_cases hw : ev = .work
    · subst hw
      rw [workCount_cons_work] at hk ⊢
      obtain ⟨m', rfl⟩ : ∃ m', m = m' + 1 := ⟨m - 1, by omega⟩
      have := ih m' (step e s .work) (push_flushing e target fl m' s h) (by omega)
      rw [show m' + 1 - (workCount evs + 1) = m' - workCount evs by omega]
      exact this
    · rw [workCount_cons_env ev evs hw] at hk ⊢
      exact ih m _ (step_env_flushing e target fl m s ev hw h) hk

theorem flushing_pc (target : List Proto) (fl : List FlushRec) (m : Nat) (s : Sys)
    (h : s.Flushing target fl m) :
    s.w.pc = .drain ∨ s.w.pc = .check ∨ s.w.pc = .fanout ∨ s.w.pc = .fanned := by
  obtain ⟨-, -, -, -, h | h | h⟩ := h
  · exact Or.inl h.1
  · rcases h.1 with h | h
    · exact Or.inr (Or.inl h.1)
    · exact Or.inr (Or.inr (Or.inl h.1))
  · exact Or.inr (Or.inr (Or.inr h.1))

theorem push_drain_read (e : Env) (s : Sys) (hpc : s.w.pc = .drain) (hwf : s.room.proto.WF)
    (hnB : (s.w.n : Int) < s.room.options.BatchNum) (hne : s.room.proto.rp ≠ s.room.proto.wp)
    (hb : s.w.n < s.w.vers.length ∧ s.w.n < s.w.ops.length ∧ s.w.n < s.w.msgs.length) :
    Room.push e s =
      { s with
        w := { s.w with
               vers := s.w.vers.set s.w.n (s.room.proto.slot (s.room.proto.rp % s.room.proto.num)).Ver,
               ops := s.w.ops.set s.w.n
                 (s.room.proto.slot (s.room.proto.rp % s.room.proto.num)).Operation,
               msgs := s.w.msgs.set s.w.n
                 (s.room.proto.slot (s.room.proto.rp % s.room.proto.num)).Body,
               n := s.w.n + 1 },
        room := { s.room with proto := s.room.proto.GetAdv } } := by
  rcases s with ⟨room, w, now, timer, flushed, closed⟩
  rcases w with ⟨pc, n, done, last, vers, ops, msgs⟩
  simp only at hpc hwf hnB hne hb
  subst hpc
  have hget : room.proto.Get = .ok (room.proto.rp % room.proto.num) := by simp [Ring.Get, hne]
  simp only [Room.push, if_neg (not_le.mpr hnB), hget, if_pos hb]

/-- The merge loop run on its own while the batch cannot fill up: after as many steps as
there are unread messages, all of them are accumulated behind the earlier ones, in order,
and the ring is empty; nothing else has changed. -/
theorem drain_run (e : Env) (j : Nat) (s : Sys) (hpc : s.w.pc = .drain)
    (hwf : s.room.proto.WF) (hj : s.room.proto.unread.length = j)
    (hv : s.w.vers.length = s.room.options.BatchNum.toNat)
    (ho : s.w.ops.length = s.room.options.BatchNum.toNat)
    (hm : s.w.msgs.length = s.room.options.BatchNum.toNat)
    (hfew : s.w.n + j < s.room.options.BatchNum.toNat) :
    ((Room.push e)^[j] s).w.pc = .drain ∧
    ((Room.push e)^[j] s).room.proto.WF ∧
    ((Room.push e)^[j] s).room.proto.unread = [] ∧
    ((Room.push e)^[j] s).w.n = s.w.n + j ∧
    batchOf (((Room.push e)^[j] s).w.vers.take ((Room.push e)^[j] s).w.n)
        (((Room.push e)^[j] s).w.ops.take ((Room.push e)^[j] s).w.n)
        (((Room.push e)^[j] s).w.msgs.take ((Room.push e)^[j] s).w.n)
      = batchOf (s.w.vers.take s.w.n) (s.w.ops.take s.w.n) (s.w.msgs.take s.w.n) ++
          s.room.proto.unread ∧
    ((Room.push e)^[j] s).w.vers.length = s.w.vers.length ∧
    ((Room.push e)^[j] s).w.ops.length = s.w.ops.length ∧
    ((Room.push e)^[j] s).w.msgs.length = s.w.msgs.length ∧
    ((Room.push e)^[j] s).w.done = s.w.done ∧ ((Room.push e)^[j] s).w.last = s.w.last ∧
    ((Room.push e)^[j] s).now = s.now ∧ ((Room.push e)^[j] s).timer = s.timer ∧
    ((Room.push e)^[j] s).flushed = s.flushed ∧
    ((Room.push e)^[j] s).room.chs = s.room.chs ∧
    ((Room.push e)^[j] s).room.signal = s.room.signal ∧
    ((Room.push e)^[j] s).room.options = s.room.options := by
  induction j generalizing s with
  | zero =>
    have : s.room.proto.unread = [] := List.length_eq_zero.mp hj
    simp [this]
    exact ⟨hpc, hwf⟩
  | succ j ih =>
    have hne : s.room.proto.rp ≠ s.room.proto.wp := by
      rw [Ring.unread_length] at hj; omega
    have hlt : s.room.proto.rp < s.room.proto.wp := lt_of_le_of_ne hwf.1 hne
    have hb : s.w.n < s.w.vers.length ∧ s.w.n < s.w.ops.length ∧ s.w.n < s.w.msgs.length := by
      refine ⟨?_, ?_, ?_⟩ <;> omega
    have hstep := push_drain_read e s hpc hwf (by omega) hne hb
    have hun := Ring.unread_GetAdv _ hlt
    have g1 : (Room.push e s).w.pc = .drain := by rw [hstep]; exact hpc
    have g2 : (Room.push e s).room.proto = s.room.proto.GetAdv := by rw [hstep]
    have g3 : (Room.push e s).w.n = s.w.n + 1 := by rw [hstep]
    have g4 : (Room.push e s).w.vers = s.w.vers.set s.w.n
        (s.room.proto.slot (s.room.proto.rp % s.room.proto.num)).Ver := by rw [hstep]
    have g5 : (Room.push e s).w.ops = s.w.ops.set s.w.n
        (s.room.proto.slot (s.room.proto.rp % s.room.proto.num)).Operation := by rw [hstep]
    have g6 : (Room.push e s).w.msgs = s.w.msgs.set s.w.n
        (s.room.proto.slot (s.room.proto.rp % s.room.proto.num)).Body := by rw [hstep]
    have g7 : (Room.push e s).room.options = s.room.options := by rw [hstep]
    have g8 : (Room.push e s).w.done = s.w.done ∧ (Room.push e s).w.last = s.w.last ∧
        (Room.push e s).now = s.now ∧ (Room.push e s).timer = s.timer ∧
        (Room.push e s).flushed = s.flushed ∧ (Room.push e s).room.chs = s.room.chs ∧
        (Room.push e s).room.signal = s.room.signal := by
      rw [hstep]; exact ⟨rfl, rfl, rfl, rfl, rfl, rfl, rfl⟩
    obtain ⟨g8a, g8b, g8c, g8d, g8e, g8f, g8g⟩ := g8
    rw [Function.iterate_succ_apply]
    have hres := ih (Room.push e s) g1 (by rw [g2]; exact Ring.wf_GetAdv _ hwf hne)
      (by rw [g2]; rw [hun] at hj; simpa using hj) (by rw [g4, g7]; simpa using hv)
      (by rw [g5, g7]; simpa using ho) (by rw [g6, g7]; simpa using hm)
      (by rw [g3, g7]; omega)
    obtain ⟨a1, a2, a3, a4, a5, a6, a7, a8, a9, a10, a11, a12, a13, a14, a15, a16⟩ := hres
    refine ⟨a1, a2, a3, by rw [a4, g3]; omega, ?_, by rw [a6, g4]; simp, by rw [a7, g5]; simp,
      by rw [a8, g6]; simp, by rw [a9, g8a], by rw [a10, g8b], by rw [a11, g8c],
      by rw [a12, g8d], by rw [a13, g8e], by rw [a14, g8f], by rw [a15, g8g], by rw [a16, g7]⟩
    rw [a5, g2, g3, g4, g5, g6, take_set_succ _ _ _ hb.1, take_set_succ _ _ _ hb.2.1,
      take_set_succ _ _ _ hb.2.2, batchOf_append _ _ _ _ _ _ (by simp; omega) (by simp; omega),
      hun]
    simp

theorem push_top_due (e : Env) (s : Sys) (hpc : s.w.pc = .top) (hn : 0 < s.w.n)
    (hd : s.least ≤ 0) :
    Room.push e s = { s with w := { s.w with done := true, pc := .recv } } := by
  have h2 : ¬ (s.least > 0) := by omega
  rcases s with ⟨room, w, now, timer, flushed, closed⟩
  rcases w with ⟨pc, n, done, last, vers, ops, msgs⟩
  simp only at hpc hn
  subst hpc
  simp only [Room.push, gt_iff_lt, if_pos hn]
  rw [if_neg (by simpa using h2)]

theorem push_top_wait (e : Env) (s : Sys) (hpc : s.w.pc = .top) (hn : 0 < s.w.n)
    (hd : 0 < s.least) :
    Room.push e s =
      { s with timer := some (s.now + s.least), w := { s.w with pc := .recv } } := by
  rcases s with ⟨room, w, now, timer, flushed, closed⟩
  rcases w with ⟨pc, n, done, last, vers, ops, msgs⟩
  simp only at hpc hn
  subst hpc
  simp only [Room.push, gt_iff_lt, if_pos hn]
  rw [if_pos hd]

theorem push_recv_done (e : Env) (s : Sys) (hpc : s.w.pc = .recv) (hd : s.w.done = true) :
    Room.push e s = { s with w := { s.w with pc := .drain } } := by
  rcases s with ⟨room, w, now, timer, flushed, closed⟩
  rcases w with ⟨pc, n, done, last, vers, ops, msgs⟩
  simp only at hpc hd
  subst hpc hd
  simp [Room.push]

theorem push_drain_empty (e : Env) (s : Sys) (hpc : s.w.pc = .drain)
    (hnB : (s.w.n : Int) < s.room.options.BatchNum) (he : s.room.proto.rp = s.room.proto.wp) :
    Room.push e s = { s with w := { s.w with pc := .check } } := by
  rcases s with ⟨room, w, now, timer, flushed, closed⟩
  rcases w with ⟨pc, n, done, last, vers, ops, msgs⟩
  simp only at hpc hnB he
  subst hpc
  have hget : room.proto.Get = .error .ErrRingEmpty := by simp [Ring.Get, he]
  simp only [Room.push, if_neg (not_le.mpr hnB), hget]

theorem push_check_due (e : Env) (s : Sys) (hpc : s.w.pc = .check) (hd : s.w.done = true) :
    Room.push e s = { s with w := { s.w with pc := .fanout } } := by
  rcases s with ⟨room, w, now, timer, flushed, closed⟩
  rcases w with ⟨pc, n, done, last, vers, ops, msgs⟩
  simp only at hpc hd
  subst hpc hd
  simp [Room.push]

theorem push_fanout (e : Env) (s : Sys) (hpc : s.w.pc = .fanout) (hn : 0 < s.w.n)
    (hb : s.w.n ≤ s.w.vers.length ∧ s.w.n ≤ s.w.ops.length ∧ s.w.n ≤ s.w.msgs.length) :
    Room.push e s =
      { s with
        flushed := s.flushed ++
          [{ time := s.now, last := s.w.last, vers := s.w.vers.take s.w.n,
             ops := s.w.ops.take s.w.n, msgs := s.w.msgs.take s.w.n,
             calls := fanOut e s.flushed.length s.room.chs (s.w.vers.take s.w.n)
               (s.w.ops.take s.w.n) (s.w.msgs.take s.w.n) }],
        w := { s.w with pc := .fanned } } := by
  rcases s with ⟨room, w, now, timer, flushed, closed⟩
  rcases w with ⟨pc, n, done, last, vers, ops, msgs⟩
  simp only at hpc hn hb
  subst hpc
  simp only [Room.push, if_pos hn, if_pos hb]

/-- The iteration of the goroutine that begins at or after the deadline with `n > 0`
accumulated messages and too few unread ones to fill the batch, run on its own: it does
not receive from the wake queue, merges every unread message, and flushes the accumulated
messages followed by the unread ones, in order, as one batch to every subscriber. -/
theorem deadline_flush (e : Env) (s : Sys) (hpc : s.w.pc = .top) (hn : 0 < s.w.n)
    (hd : s.least ≤ 0) (hwf : s.room.proto.WF)
    (hv : s.w.vers.length = s.room.options.BatchNum.toNat)
    (ho : s.w.ops.length = s.room.options.BatchNum.toNat)
    (hm : s.w.msgs.length = s.room.options.BatchNum.toNat)
    (hfew : s.w.n + s.room.proto.unread.length < s.room.options.BatchNum.toNat) :
    ∃ f, ((Room.push e)^[s.room.proto.unread.length + 5] s).flushed = s.flushed ++ [f] ∧
      f.time = s.now ∧ f.last = s.w.last ∧
      batchOf f.vers f.ops f.msgs =
        batchOf (s.w.vers.take s.w.n) (s.w.ops.take s.w.n) (s.w.msgs.take s.w.n) ++
          s.room.proto.unread ∧
      f.calls = fanOut e s.flushed.length s.room.chs f.vers f.ops f.msgs ∧
      ((Room.push e)^[s.room.proto.unread.length + 5] s).w.pc = .fanned ∧
      ((Room.push e)^[s.room.proto.unread.length + 5] s).room.proto.unread = [] ∧
      ((Room.push e)^[s.room.proto.unread.length + 5] s).room.signal = s.room.signal := by
  have e1 := push_top_due e s hpc hn hd
  have e2 := push_recv_done e (Room.push e s) (by rw [e1]) (by rw [e1])
  have hs2 : (Room.push e)^[2] s = { s with w := { s.w with done := true, pc := .drain } } := by
    rw [Function.iterate_succ_apply, Function.iterate_one, e2, e1]
  have hr := drain_run e s.room.proto.unread.length ((Room.push e)^[2] s) (by rw [hs2])
    (by rw [hs2]; exact hwf) (by rw [hs2]) (by rw [hs2]; exact hv) (by rw [hs2]; exact ho)
    (by rw [hs2]; exact hm) (by rw [hs2]; exact hfew)
  have hit : (Room.push e)^[s.room.proto.unread.length + 5] s =
      (Room.push e)^[3] ((Room.push e)^[s.room.proto.unread.length] ((Room.push e)^[2] s)) := by
    rw [← Function.iterate_add_apply, ← Function.iterate_add_apply]
    congr 1
    omega
  rw [hit]
  generalize (Room.push e)^[s.room.proto.unread.length] ((Room.push e)^[2] s) = s3 at hr
  obtain ⟨a1, a2, a3, a4, a5, a6, a7, a8, a9, a10, a11, a12, a13, a14, a15, a16⟩ := hr
  have b4 : s3.w.n = s.w.n + s.room.proto.unread.length := by rw [a4, hs2]
  have b9 : s3.w.done = true := by rw [a9, hs2]
  have hemp : s3.room.proto.rp = s3.room.proto.wp := by
    have := Ring.unread_length s3.room.proto
    rw [a3] at this
    have := a2.1
    simp at *
    omega
  have hopt : s3.room.options = s.room.options := by rw [a16, hs2]
  have e4 := push_drain_empty e s3 a1 (by rw [b4, hopt]; omega) hemp
  have e5 := push_check_due e (Room.push e s3) (by rw [e4]) (by rw [e4]; exact b9)
  have hb6 : s3.w.n ≤ s3.w.vers.length ∧ s3.w.n ≤ s3.w.ops.length ∧ s3.w.n ≤ s3.w.msgs.length := by
    rw [a6, a7, a8, b4, hs2]
    simp only
    refine ⟨?_, ?_, ?_⟩ <;> omega
  have e6 := push_fanout e (Room.push e (Room.push e s3)) (by rw [e5])
    (by rw [e5, e4]; simp only; omega) (by rw [e5, e4]; exact hb6)
  have hs6 : (Room.push e)^[3] s3 = Room.push e (Room.push e (Room.push e s3)) := by
    simp [Function.iterate_succ_apply]
  rw [hs6, e6, e5, e4]
  simp only
  refine ⟨_, by rw [a13, hs2], by rw [a11, hs2], by rw [a10, hs2], ?_, ?_, trivial, a3,
    by rw [a15, hs2]⟩
  · simp only
    rw [a5, hs2]
  · simp only
    rw [a14, hs2]

theorem push_total_eq (e : Env) (id now : Int) (o : RoomOptions) (evs : List Ev) :
    (exec e (NewRoom e id now o) evs).total = accepted e (NewRoom e id now o) evs := by
  have h := exec_total e now _ evs (NewRoom_inv e id now o)
  have h0 : (NewRoom e id now o).total = [] := by
    simp [Sys.total, Sys.delivered, Sys.acc, NewRoom, batchOf, List.zipWith3, Ring.unread,
      Ring.Init]
  rw [h0, List.nil_append] at h
  exact h

theorem length_le_flatten {α : Type} (L : List (List α)) (l : List α) (h : l ∈ L) :
    l.length ≤ L.flatten.length := by
  induction L with
  | nil => simp at h
  | cons a as ih =>
    rcases List.mem_cons.mp h with h | h
    · subst h; simp
    · have := ih h
      simp only [List.flatten_cons, List.length_append]
      omega

theorem Chan.trySend_pending (ch ch' : Chan) (v : Int) (h : ch.trySend v = some ch') :
    ch'.handoff ≠ none ∨ ch'.buf ≠ [] := by
  unfold Chan.trySend at h
  split at h
  · cases h; exact Or.inl (by simp)
  · split at h
    · cases h; exact Or.inr (by simp)
    · cases h

/-- C12. Publish never blocks on the wake queue: `Push` is a total function of the room; it
returns exactly the result of the ring write attempt, and after that attempt, whether or
not it succeeded, it makes one non-blocking send of `ProtoReady`: handed to the goroutine
if it is parked in its receive, else appended to the buffer if there is room, else
dropped with the wake queue unchanged. Nothing but the ring and the wake queue changes. -/
theorem Push_never_blocks (e : Env) (r : Room) (ver operation : Int) (msg : List Nat) :
    (r.Push e ver operation msg).2 =
      (match r.proto.Set with
       | .ok _ => none
       | .error err => some err) ∧
    (r.Push e ver operation msg).1.signal =
      (if r.signal.parked = true then
        { r.signal with parked := false, handoff := some e.ProtoReady }
       else if r.signal.buf.length < r.signal.cap then
        { r.signal with buf := r.signal.buf ++ [e.ProtoReady] }
       else r.signal) ∧
    (r.Push e ver operation msg).1.signal =
      ((r.signal.trySend e.ProtoReady).getD r.signal) ∧
    (r.Push e ver operation msg).1.chs = r.chs ∧
    (r.Push e ver operation msg).1.options = r.options := by
  have hf := Room.Push_frame e r ver operation msg
  have hs : (r.Push e ver operation msg).1.signal = ((r.signal.trySend e.ProtoReady).getD r.signal) := by
    unfold Room.Push
    cases r.proto.Set <;> simp only <;> split <;> simp_all
  refine ⟨Room.Push_snd e r ver operation msg, ?_, hs, hf.1, hf.2.1⟩
  rw [hs]
  unfold Chan.trySend
  by_cases hp : r.signal.parked = true
  · simp [hp]
  · by_cases hl : r.signal.buf.length < r.signal.cap
    · simp [hp, hl]
    · simp [hp, hl]

/-- C14, as stated, fails: a goroutine started at time 0 with `SignalTime = 50` begins an
iteration at time 20 with `n = 0`; the step records `last = 20` and leaves the timer due
at 50, not at 70. -/
theorem cycle_start_rearm_fails :
    exIdle.w.pc = .top ∧ exIdle.w.n = 0 ∧ exIdle.now = 20 ∧ exIdle.timer = some 50 ∧
    (Room.push exEnv exIdle).w.last = 20 ∧
    (Room.push exEnv exIdle).timer = some 50 ∧
    (Room.push exEnv exIdle).timer ≠ some (exIdle.now + exIdle.room.options.SignalTime) := by
  decide

/-- C14, amended. Cycle start: in an iteration that begins with nothing accumulated
(`n = 0`) the goroutine records the current time in `last`, goes on to its receive and
leaves the timer registration as it is, pending or spent; nothing else changes. -/
theorem cycle_start_records_last (e : Env) (s : Sys) (hpc : s.w.pc = .top) (hn : s.w.n = 0) :
    (Room.push e s).w.last = s.now ∧ (Room.push e s).timer = s.timer ∧
    (Room.push e s).w.pc = .recv ∧ (Room.push e s).w.n = 0 ∧
    (Room.push e s).w.done = s.w.done ∧ (Room.push e s).room = s.room ∧
    (Room.push e s).flushed = s.flushed ∧ (Room.push e s).now = s.now := by
  rcases s with ⟨room, w, now, timer, flushed, closed⟩
  rcases w with ⟨pc, n, done, last, vers, ops, msgs⟩
  simp only at hpc hn
  subst hpc hn
  simp [Room.push]

theorem cycle_start_records_last_witness :
    (Room.push exEnv exIdle).w.last = 20 ∧ (Room.push exEnv exIdle).timer = exIdle.timer :=
  have h := cycle_start_records_last exEnv exIdle (by decide) (by decide)
  ⟨h.1.trans (by decide), h.2.1⟩

/-- C16. Batch bounds: with `BatchNum ≥ 0`, in every state a new room can reach the
goroutine has not panicked (no allocation of negative length, no index out of range, no
slice beyond capacity), `n ≤ BatchNum`, once allocated the three arrays have `BatchNum`
slots, a write at the head of the merge loop with `n < BatchNum` is inside all three
arrays, and every flush carries between 1 and `BatchNum` messages in each slice. -/
theorem batch_bounds (e : Env) (id now : Int) (o : RoomOptions) (evs : List Ev)
    (hB : 0 ≤ o.BatchNum) :
    (exec e (NewRoom e id now o) evs).w.pc ≠ .crashed ∧
    ((exec e (NewRoom e id now o) evs).w.n : Int) ≤ o.BatchNum ∧
    ((exec e (NewRoom e id now o) evs).w.pc ≠ .start →
      ((exec e (NewRoom e id now o) evs).w.vers.length : Int) = o.BatchNum ∧
      ((exec e (NewRoom e id now o) evs).w.ops.length : Int) = o.BatchNum ∧
      ((exec e (NewRoom e id now o) evs).w.msgs.length : Int) = o.BatchNum) ∧
    ((exec e (NewRoom e id now o) evs).w.pc = .drain →
      ((exec e (NewRoom e id now o) evs).w.n : Int) < o.BatchNum →
      (exec e (NewRoom e id now o) evs).w.n < (exec e (NewRoom e id now o) evs).w.vers.length ∧
      (exec e (NewRoom e id now o) evs).w.n < (exec e (NewRoom e id now o) evs).w.ops.length ∧
      (exec e (NewRoom e id now o) evs).w.n < (exec e (NewRoom e id now o) evs).w.msgs.length) ∧
    (∀ f ∈ (exec e (NewRoom e id now o) evs).flushed,
      1 ≤ f.vers.length ∧ (f.vers.length : Int) ≤ o.BatchNum ∧
      f.ops.length = f.vers.length ∧ f.msgs.length = f.vers.length) := by
  have hinv := exec_inv e now _ evs (NewRoom_inv e id now o)
  have hlog := exec_logOk e now _ evs (NewRoom_inv e id now o) (NewRoom_logOk e id now o)
  have hopt : (exec e (NewRoom e id now o) evs).room.options = o := by rw [exec_options]; rfl
  generalize exec e (NewRoom e id now o) evs = s at hinv hlog hopt
  obtain ⟨-, -, hstart, hcr, harr, -, -, -, -⟩ := hinv
  rw [hopt] at hcr harr
  have hnc : s.w.pc ≠ .crashed := fun hc => by have := hcr hc; omega
  refine ⟨hnc, ?_, ?_, ?_, ?_⟩
  · by_cases hs : s.w.pc = .start
    · rw [(hstart hs).1]; simpa using hB
    · have := harr hs hnc; omega
  · intro hs
    have := harr hs hnc
    omega
  · intro hd hlt
    have := harr (by simp [hd]) hnc
    omega
  · intro f hf
    have := hlog f hf
    rw [hopt] at this
    exact ⟨this.2.2.1, this.2.2.2.1, this.1, this.2.1⟩

theorem batch_bounds_witness :
    (exec exEnv (NewRoom exEnv 7 0 exOptions) exScenario).w.pc ≠ .crashed ∧
    ((exec exEnv (NewRoom exEnv 7 0 exOptions) exScenario).w.n : Int) ≤ exOptions.BatchNum :=
  ⟨(batch_bounds exEnv 7 0 exOptions exScenario (by decide)).1,
   (batch_bounds exEnv 7 0 exOptions exScenario (by decide)).2.1⟩

/-- C17. Shutdown leaves membership intact: whenever `Close` goes through (it waits exactly
while the wake queue is full and the goroutine is not parked in its receive), the
subscriber set, hence `Online()`, the ring, the options and the identity of the room are
as before, and the wake queue has gained one `ProtoFinish`: handed to the parked
goroutine, or else appended to the buffer. As an event, `Close` leaves the goroutine's
locals, the clock, the timer and the flushes unchanged. -/
theorem Close_keeps_membership (e : Env) (r : Room) (s : Sys) :
    (Room.Close e r = none ↔ (r.signal.parked = false ∧ r.signal.cap ≤ r.signal.buf.length)) ∧
    (∀ r' cs, Room.Close e r = some (r', cs) →
      r'.chs = r.chs ∧ r'.Online = r.Online ∧ r'.proto = r.proto ∧ r'.options = r.options ∧
      r'.id = r.id ∧
      r'.signal =
        (if r.signal.parked = true then
          { r.signal with parked := false, handoff := some e.ProtoFinish }
         else { r.signal with buf := r.signal.buf ++ [e.ProtoFinish] })) ∧
    ((step e s .Close).w = s.w ∧ (step e s .Close).now = s.now ∧
      (step e s .Close).timer = s.timer ∧ (step e s .Close).flushed = s.flushed ∧
      (step e s .Close).room.chs = s.room.chs ∧ (step e s .Close).room.proto = s.room.proto) := by
  refine ⟨?_, ?_, ?_⟩
  · unfold Room.Close Chan.trySend
    by_cases hp : r.signal.parked = true
    · simp [hp]
    · by_cases hl : r.signal.buf.length < r.signal.cap
      · simp [hp, hl]
      · simp [hp, hl]; omega
  · intro r' cs h
    obtain ⟨h1, h2, h3, h4, -⟩ := Room.Close_frame e r r' cs h
    refine ⟨h2, by simp [Room.Online, h2], h1, h3, h4, ?_⟩
    unfold Room.Close at h
    cases hts : r.signal.trySend e.ProtoFinish with
    | none => rw [hts] at h; cases h
    | some ch =>
      rw [hts] at h
      simp only [Option.some.injEq, Prod.mk.injEq] at h
      rw [← h.1]
      simp only
      unfold Chan.trySend at hts
      by_cases hp : r.signal.parked = true
      · simp [hp] at hts
        rw [← hts]; simp [hp]
      · have hp' : r.signal.parked = false := by simpa using hp
        by_cases hl : r.signal.buf.length < r.signal.cap
        · simp [hp', hl] at hts
          rw [← hts]; simp [hp']
        · simp [hp', hl] at hts
  · simp only [step]
    cases hc : s.room.Close e with
    | none => simp
    | some x =>
      obtain ⟨r', cs⟩ := x
      obtain ⟨h1, h2, -, -, -⟩ := Room.Close_frame e s.room r' cs hc
      simp [h1, h2]

theorem Close_keeps_membership_witness :
    (Room.Close exEnv exRoom).isSome = true ∧
    ∀ r' cs, Room.Close exEnv exRoom = some (r', cs) → r'.Online = 2 :=
  ⟨by decide, fun r' cs h =>
    ((Close_keeps_membership exEnv exRoom exDue).2.1 r' cs h).2.1.trans (by decide)⟩

/-- The merge loop run on its own for `j` reads, with at least `j` unread messages and
room for `j` more entries: the `j` oldest unread messages are accumulated behind the
earlier ones, in order; nothing else has changed. -/
theorem drain_run_upto (e : Env) (j : Nat) (s : Sys) (hpc : s.w.pc = .drain)
    (hwf : s.room.proto.WF) (hj : j ≤ s.room.proto.unread.length)
    (hv : s.w.vers.length = s.room.options.BatchNum.toNat)
    (ho : s.w.ops.length = s.room.options.BatchNum.toNat)
    (hm : s.w.msgs.length = s.room.options.BatchNum.toNat)
    (hfew : s.w.n + j ≤ s.room.options.BatchNum.toNat) :
    ((Room.push e)^[j] s).w.pc = .drain ∧
    ((Room.push e)^[j] s).room.proto.WF ∧
    ((Room.push e)^[j] s).room.proto.unread = s.room.proto.unread.drop j ∧
    ((Room.push e)^[j] s).w.n = s.w.n + j ∧
    batchOf (((Room.push e)^[j] s).w.vers.take ((Room.push e)^[j] s).w.n)
        (((Room.push e)^[j] s).w.ops.take ((Room.push e)^[j] s).w.n)
        (((Room.push e)^[j] s).w.msgs.take ((Room.push e)^[j] s).w.n)
      = batchOf (s.w.vers.take s.w.n) (s.w.ops.take s.w.n) (s.w.msgs.take s.w.n) ++
          s.room.proto.unread.take j ∧
    ((Room.push e)^[j] s).w.vers.length = s.w.vers.length ∧
    ((Room.push e)^[j] s).w.ops.length = s.w.ops.length ∧
    ((Room.push e)^[j] s).w.msgs.length = s.w.msgs.length ∧
    ((Room.push e)^[j] s).w.done = s.w.done ∧ ((Room.push e)^[j] s).w.last = s.w.last ∧
    ((Room.push e)^[j] s).now = s.now ∧ ((Room.push e)^[j] s).timer = s.timer ∧
    ((Room.push e)^[j] s).flushed = s.flushed ∧
    ((Room.push e)^[j] s).room.chs = s.room.chs ∧
    ((Room.push e)^[j] s).room.signal = s.room.signal ∧
    ((Room.push e)^[j] s).room.options = s.room.options := by
  induction j generalizing s with
  | zero => simp; exact ⟨hpc, hwf⟩
  | succ j ih =>
    have hne : s.room.proto.rp ≠ s.room.proto.wp := by
      rw [Ring.unread_length] at hj; omega
    have hlt : s.room.proto.rp < s.room.proto.wp := lt_of_le_of_ne hwf.1 hne
    have hb : s.w.n < s.w.vers.length ∧ s.w.n < s.w.ops.length ∧ s.w.n < s.w.msgs.length := by
      refine ⟨?_, ?_, ?_⟩ <;> omega
    have hstep := push_drain_read e s hpc hwf (by omega) hne hb
    have hun := Ring.unread_GetAdv _ hlt
    have g1 : (Room.push e s).w.pc = .drain := by rw [hstep]; exact hpc
    have g2 : (Room.push e s).room.proto = s.room.proto.GetAdv := by rw [hstep]
    have g3 : (Room.push e s).w.n = s.w.n + 1 := by rw [hstep]
    have g4 : (Room.push e s).w.vers = s.w.vers.set s.w.n
        (s.room.proto.slot (s.room.proto.rp % s.room.proto.num)).Ver := by rw [hstep]
    have g5 : (Room.push e s).w.ops = s.w.ops.set s.w.n
        (s.room.proto.slot (s.room.proto.rp % s.room.proto.num)).Operation := by rw [hstep]
    have g6 : (Room.push e s).w.msgs = s.w.msgs.set s.w.n
        (s.room.proto.slot (s.room.proto.rp % s.room.proto.num)).Body := by rw [hstep]
    have g7 : (Room.push e s).room.options = s.room.options := by rw [hstep]
    have g8 : (Room.push e s).w.done = s.w.done ∧ (Room.push e s).w.last = s.w.last ∧
        (Room.push e s).now = s.now ∧ (Room.push e s).timer = s.timer ∧
        (Room.push e s).flushed = s.flushed ∧ (Room.push e s).room.chs = s.room.chs ∧
        (Room.push e s).room.signal = s.room.signal := by
      rw [hstep]; exact ⟨rfl, rfl, rfl, rfl, rfl, rfl, rfl⟩
    obtain ⟨g8a, g8b, g8c, g8d, g8e, g8f, g8g⟩ := g8
    rw [Function.iterate_succ_apply]
    have hres := ih (Room.push e s) g1 (by rw [g2]; exact Ring.wf_GetAdv _ hwf hne)
      (by rw [g2]; rw [hun] at hj; simpa using hj) (by rw [g4, g7]; simpa using hv)
      (by rw [g5, g7]; simpa using ho) (by rw [g6, g7]; simpa using hm)
      (by rw [g3, g7]; omega)
    obtain ⟨a1, a2, a3, a4, a5, a6, a7, a8, a9, a10, a11, a12, a13, a14, a15, a16⟩ := hres
    refine ⟨a1, a2, by rw [a3, g2, hun]; simp, by rw [a4, g3]; omega, ?_, by rw [a6, g4]; simp,
      by rw [a7, g5]; simp, by rw [a8, g6]; simp, by rw [a9, g8a], by rw [a10, g8b],
      by rw [a11, g8c], by rw [a12, g8d], by rw [a13, g8e], by rw [a14, g8f],
      by rw [a15, g8g], by rw [a16, g7]⟩
    rw [a5, g2, g3, g4, g5, g6, take_set_succ _ _ _ hb.1, take_set_succ _ _ _ hb.2.1,
      take_set_succ _ _ _ hb.2.2, batchOf_append _ _ _ _ _ _ (by simp; omega) (by simp; omega),
      hun]
    simp

theorem push_drain_full (e : Env) (s : Sys) (hpc : s.w.pc = .drain)
    (hnB : s.room.options.BatchNum ≤ (s.w.n : Int)) :
    Room.push e s = { s with w := { s.w with done := true, pc := .check } } := by
  rcases s with ⟨room, w, now, timer, flushed, closed⟩
  rcases w with ⟨pc, n, done, last, vers, ops, msgs⟩
  simp only at hpc hnB
  subst hpc
  simp only [Room.push, ge_iff_le, if_pos hnB]

theorem push_drain_stop (e : Env) (s : Sys) (hpc : s.w.pc = .drain) (hd : s.w.done = true)
    (h : s.room.options.BatchNum ≤ (s.w.n : Int) ∨ s.room.proto.rp = s.room.proto.wp) :
    Room.push e s = { s with w := { s.w with pc := .check } } := by
  rcases h with h | h
  · rw [push_drain_full e s hpc h]
    rcases s with ⟨room, w, now, timer, flushed, closed⟩
    rcases w with ⟨pc, n, done, last, vers, ops, msgs⟩
    simp only at hd
    subst hd
    rfl
  · by_cases hfull : s.room.options.BatchNum ≤ (s.w.n : Int)
    · rw [push_drain_full e s hpc hfull]
      rcases s with ⟨room, w, now, timer, flushed, closed⟩
      rcases w with ⟨pc, n, done, last, vers, ops, msgs⟩
      simp only at hd
      subst hd
      rfl
    · exact push_drain_empty e s hpc (by omega) h

/-- The iteration of the goroutine that begins at or after the deadline with `n > 0`
accumulated messages, run on its own: it goes to the merge loop without receiving, merges
unread messages until the batch is full or the ring empty, and flushes the batch. -/
theorem due_flush (e : Env) (s : Sys) (hpc : s.w.pc = .top) (hn : 0 < s.w.n)
    (hd : s.least ≤ 0) (hwf : s.room.proto.WF)
    (hv : s.w.vers.length = s.room.options.BatchNum.toNat)
    (ho : s.w.ops.length = s.room.options.BatchNum.toNat)
    (hm : s.w.msgs.length = s.room.options.BatchNum.toNat)
    (hnB : s.w.n ≤ s.room.options.BatchNum.toNat) (j : Nat)
    (hj : j = min s.room.proto.unread.length (s.room.options.BatchNum.toNat - s.w.n)) :
    ∃ f, ((Room.push e)^[j + 5] s).flushed = s.flushed ++ [f] ∧
      f.time = s.now ∧ f.last = s.w.last ∧ f.vers.length = s.w.n + j ∧
      batchOf f.vers f.ops f.msgs =
        batchOf (s.w.vers.take s.w.n) (s.w.ops.take s.w.n) (s.w.msgs.take s.w.n) ++
          s.room.proto.unread.take j ∧
      f.calls = fanOut e s.flushed.length s.room.chs f.vers f.ops f.msgs ∧
      ((Room.push e)^[j + 5] s).w.pc = .fanned ∧
      ((Room.push e)^[j + 5] s).room.proto.unread = s.room.proto.unread.drop j ∧
      ((Room.push e)^[j + 5] s).room.signal = s.room.signal ∧
      ((Room.push e)^[j + 5] s).timer = s.timer := by
  have e1 := push_top_due e s hpc hn hd
  have e2 := push_recv_done e (Room.push e s) (by rw [e1]) (by rw [e1])
  have hs2 : (Room.push e)^[2] s = { s with w := { s.w with done := true, pc := .drain } } := by
    rw [Function.iterate_succ_apply, Function.iterate_one, e2, e1]
  have hr := drain_run_upto e j ((Room.push e)^[2] s) (by rw [hs2])
    (by rw [hs2]; exact hwf) (by rw [hs2]; simp only; omega) (by rw [hs2]; exact hv)
    (by rw [hs2]; exact ho) (by rw [hs2]; exact hm) (by rw [hs2]; simp only; omega)
  have hit : (Room.push e)^[j + 5] s =
      (Room.push e)^[3] ((Room.push e)^[j] ((Room.push e)^[2] s)) := by
    rw [← Function.iterate_add_apply, ← Function.iterate_add_apply]
    congr 1
    omega
  rw [hit]
  generalize (Room.push e)^[j] ((Room.push e)^[2] s) = s3 at hr
  obtain ⟨a1, a2, a3, a4, a5, a6, a7, a8, a9, a10, a11, a12, a13, a14, a15, a16⟩ := hr
  have b4 : s3.w.n = s.w.n + j := by rw [a4, hs2]
  have b9 : s3.w.done = true := by rw [a9, hs2]
  have hopt : s3.room.options = s.room.options := by rw [a16, hs2]
  have b3 : s3.room.proto.unread = s.room.proto.unread.drop j := by rw [a3, hs2]
  have e4 : Room.push e s3 = { s3 with w := { s3.w with pc := .check } } := by
    apply push_drain_stop e s3 a1 b9
    by_cases hfull : s3.room.options.BatchNum ≤ (s3.w.n : Int)
    · exact Or.inl hfull
    · refine Or.inr ?_
      have h1 := Ring.unread_length s3.room.proto
      rw [b3, List.length_drop] at h1
      have h2 := a2.1
      rw [b4, hopt] at hfull
      omega
  have e5 := push_check_due e (Room.push e s3) (by rw [e4]) (by rw [e4]; exact b9)
  have hb6 : s3.w.n ≤ s3.w.vers.length ∧ s3.w.n ≤ s3.w.ops.length ∧ s3.w.n ≤ s3.w.msgs.length := by
    rw [a6, a7, a8, b4, hs2]
    simp only
    refine ⟨?_, ?_, ?_⟩ <;> omega
  have e6 := push_fanout e (Room.push e (Room.push e s3)) (by rw [e5])
    (by rw [e5, e4]; simp only; omega) (by rw [e5, e4]; exact hb6)
  have hs6 : (Room.push e)^[3] s3 = Room.push e (Room.push e (Room.push e s3)) := by
    simp [Function.iterate_succ_apply]
  rw [hs6, e6, e5, e4]
  simp only
  refine ⟨_, by rw [a13, hs2], by rw [a11, hs2], by rw [a10, hs2], ?_, ?_, ?_, trivial, b3,
    by rw [a15, hs2], by rw [a12, hs2]⟩
  · simp only [List.length_take]
    omega
  · simp only
    rw [a5, hs2]
  · simp only
    rw [a14, hs2]

theorem push_recv_park (e : Env) (s : Sys) (hpc : s.w.pc = .recv) (hd : s.w.done = false)
    (hh : s.room.signal.handoff = none) (hb : s.room.signal.buf = []) :
    Room.push e s =
      { s with room := { s.room with signal := { s.room.signal with parked := true } } } := by
  rcases s with ⟨room, w, now, timer, flushed, closed⟩
  rcases w with ⟨pc, n, done, last, vers, ops, msgs⟩
  simp only at hpc hd hh hb
  subst hpc hd
  have hr : room.signal.recv = (none, { room.signal with parked := true }) := by
    simp [Chan.recv, hh, hb]
  simp only [Room.push, hr]
  simp

theorem take_batch (acc unread : List Proto) (B n j : Nat) (hacc : acc.length = n) (hn : n ≤ B)
    (hj : j = min unread.length (B - n)) : acc ++ unread.take j = (acc ++ unread).take B := by
  have h1 : acc.take B = acc := List.take_of_length_le (by omega)
  rw [List.take_append_eq_append_take, h1, hacc]
  congr 1
  subst hj
  rcases Nat.le_total unread.length (B - n) with h | h
  · rw [Nat.min_eq_left h, List.take_of_length_le (le_refl _), List.take_of_length_le h]
  · rw [Nat.min_eq_right h]

theorem push_n_lower (e : Env) (s : Sys) (h : (Room.push e s).w.n < s.w.n) :
    s.w.pc = .fanned := by
  rcases s with ⟨room, w, now, timer, flushed, closed⟩
  rcases w with ⟨pc, n, done, last, vers, ops, msgs⟩
  cases pc <;> simp only [Room.push] at h ⊢
  case start => split at h <;> simp at h
  case top => split at h <;> [(split at h <;> simp at h); simp at h]
  case recv =>
    split at h
    · simp at h
    · split at h
      · simp at h
      · split at h <;> simp at h
  case drain =>
    split at h
    · simp at h
    · split at h
      · simp at h
      · split at h <;> simp at h
  case check => split at h <;> simp at h
  case fanout => split at h <;> [(split at h <;> simp at h); simp at h]
  case stopped => simp at h
  case crashed => simp at h

theorem push_to_stopped (e : Env) (s : Sys) (h : (Room.push e s).w.pc = .stopped) :
    s.w.pc = .stopped ∨
    (s.w.pc = .recv ∧ s.w.done = false ∧
      ∃ v ch, s.room.signal.recv = (some v, ch) ∧ v ≠ e.ProtoReady) := by
  rcases s with ⟨room, w, now, timer, flushed, closed⟩
  rcases w with ⟨pc, n, done, last, vers, ops, msgs⟩
  cases pc <;> simp only [Room.push] at h ⊢
  case start => split at h <;> simp at h
  case top => split at h <;> [(split at h <;> simp at h); simp at h]
  case recv =>
    split at h
    · simp at h
    · rename_i hd
      split at h
      · simp at h
      · rename_i v ch hr
        split at h
        · rename_i hv
          exact Or.inr ⟨trivial, by simpa using hd, v, ch, hr, hv⟩
        · simp at h
  case drain =>
    split at h
    · simp at h
    · split at h
      · simp at h
      · split at h <;> simp at h
  case check => split at h <;> simp at h
  case fanout => split at h <;> [(split at h <;> simp at h); simp at h]
  case fanned => simp at h
  case stopped => exact Or.inl trivial
  case crashed => simp at h

/-- C13, as stated, fails: after the events of `exShutdown` two messages have been accepted,
none has been refused, the goroutine has stopped holding `m1` in its arrays with `m2`
unread in the ring, and no continuation ever flushes them. -/
theorem shutdown_loses_messages : ¬ NoDiscard exEnv (NewRoom exEnv 7 0 exOptions) := by
  intro h
  obtain ⟨evs', hp⟩ := h exShutdown
  have hst : (exec exEnv (NewRoom exEnv 7 0 exOptions) exShutdown).w.pc = .stopped := by decide
  have hfl := (exec_stopped exEnv _ evs' hst).2.1
  have hacc : accepted exEnv (NewRoom exEnv 7 0 exOptions) exShutdown =
      [⟨1, 4, [10]⟩, ⟨1, 4, [11]⟩] := by decide
  have h0 : (exec exEnv (NewRoom exEnv 7 0 exOptions) exShutdown).flushed = [] := by decide
  rw [exec_append, hacc] at hp
  have hd : (exec exEnv (exec exEnv (NewRoom exEnv 7 0 exOptions) exShutdown) evs').delivered
      = [] := by
    simp [Sys.delivered, hfl, h0]
  rw [hd] at hp
  simp at hp

/-- C13, amended. While the goroutine runs no accepted message is discarded, and shutdown
discards what is pending. In every state a new room can reach: (a) the flushed batches,
the accumulated entries and the unread slots are exactly the accepted messages, in
order; (b) a step of the goroutine lowers `n` only at the reset after a fan-out; (c) the
goroutine stops only by receiving a value other than `ProtoReady`; (d) once it has
stopped, whatever happens, nothing more is flushed: the accumulated entries stay where
they are and the ring only gains the messages accepted afterwards. -/
theorem shutdown_discards_pending (e : Env) (id now : Int) (o : RoomOptions)
    (pre evs : List Ev) (s0 : Sys) (hs0 : s0 = exec e (NewRoom e id now o) pre) :
    s0.delivered ++ s0.acc ++ s0.room.proto.unread = accepted e (NewRoom e id now o) pre ∧
    ((Room.push e s0).w.n < s0.w.n → s0.w.pc = .fanned) ∧
    ((Room.push e s0).w.pc = .stopped → s0.w.pc ≠ .stopped →
      s0.w.pc = .recv ∧ s0.w.done = false ∧
      ∃ v ch, s0.room.signal.recv = (some v, ch) ∧ v ≠ e.ProtoReady) ∧
    (s0.w.pc = .stopped →
      (exec e s0 evs).w.pc = .stopped ∧
      (exec e s0 evs).flushed = s0.flushed ∧
      (exec e s0 evs).delivered = s0.delivered ∧
      (exec e s0 evs).acc = s0.acc ∧
      (exec e s0 evs).room.proto.unread = s0.room.proto.unread ++ accepted e s0 evs) := by
  have hinv : s0.Inv now := by rw [hs0]; exact exec_inv e now _ pre (NewRoom_inv e id now o)
  refine ⟨?_, push_n_lower e s0, ?_, ?_⟩
  · have := push_total_eq e id now o pre
    rw [← hs0] at this
    exact this
  · intro h hne
    rcases push_to_stopped e s0 h with h' | h'
    · exact absurd h' hne
    · exact h'
  · intro hst
    obtain ⟨a, b, -, -⟩ := exec_stopped e s0 evs hst
    have hd : (exec e s0 evs).delivered = s0.delivered := by simp [Sys.delivered, b]
    have hacc : (exec e s0 evs).acc = s0.acc := by simp [Sys.acc, a]
    have ht := exec_total e now s0 evs hinv
    simp only [Sys.total] at ht
    rw [hd, hacc, List.append_assoc (s0.delivered ++ s0.acc)] at ht
    exact ⟨by rw [a]; exact hst, b, hd, hacc, List.append_cancel_left ht⟩

theorem shutdown_discards_pending_witness :
    (exec exEnv (NewRoom exEnv 7 0 exOptions) exShutdown).w.pc = .stopped ∧
    (exec exEnv (NewRoom exEnv 7 0 exOptions) exShutdown).w.n = 1 ∧
    (exec exEnv (exec exEnv (NewRoom exEnv 7 0 exOptions) exShutdown)
      [.tick 100, .fire, .work, .work]).flushed =
        (exec exEnv (NewRoom exEnv 7 0 exOptions) exShutdown).flushed :=
  ⟨by decide, by decide,
   ((shutdown_discards_pending exEnv 7 0 exOptions exShutdown [.tick 100, .fire, .work, .work]
      _ rfl).2.2.2 (by decide)).2.1⟩

/-- C11, as stated, fails: with `BatchNum = 0` and `SignalTime = 0` `NewRoom` yields a room
on which `Put`, `Online` and `Push` work and whose goroutine starts without a panic; with
`SignalTime = 0` and `BatchNum = 3` the room even delivers a published message. -/
theorem misconfigured_room_usable :
    (NewRoom exEnv 7 0 exZeroBatch).room.Online = 0 ∧
    ((NewRoom exEnv 7 0 exZeroBatch).room.Put 1).Online = 1 ∧
    ((NewRoom exEnv 7 0 exZeroBatch).room.Push exEnv 1 4 [10]).2 = none ∧
    (Room.push exEnv (NewRoom exEnv 7 0 exZeroBatch)).w.pc = .top ∧
    (exec exEnv (NewRoom exEnv 7 0 exZeroTime) exOneMessage).w.pc = .fanned ∧
    (exec exEnv (NewRoom exEnv 7 0 exZeroTime) exOneMessage).flushed.map (fun f => f.msgs)
      = [[[10]]] := by
  decide

theorem push_armed (e : Env) (s : Sys) (h0 : 0 ≤ s.room.options.SignalTime)
    (hmax : s.room.options.SignalTime ≤ maxInt64)
    (hl : s.w.pc = .top → 0 < s.w.n → s.w.last ≤ s.now) (h : s.Armed) :
    (Room.push e s).Armed := by
  rcases s with ⟨room, w, now, timer, flushed, closed⟩
  rcases w with ⟨pc, n, done, last, vers, ops, msgs⟩
  unfold Sys.Armed at h ⊢
  simp only at h h0 hmax hl
  cases pc
  case start => simp only [Room.push]; split <;> simp
  case top =>
    simp only [Room.push]
    split
    · rename_i hn
      split
      · rename_i hpos
        intro _ _ _
        refine Or.inl ?_
        have hex := (least_exact room.options.SignalTime (now - last) h0 hmax
          (by have := hl rfl hn; omega)).2 (by simpa [Sys.least] using hpos)
        simp only [Sys.least, Option.some.injEq]
        omega
      · simp
    · rename_i hn
      intro _ _ hn'
      simp only at hn'
      omega
  case recv =>
    simp only [Room.push]
    split
    · simp
    · rename_i hd
      split
      · rename_i ch hr
        intro h1 h2 h3
        have hh := h rfl (by simpa using hd) h3
        unfold Chan.recv at hr
        split at hr
        · simp at hr
        · rename_i hnone
          split at hr
          · simp at hr
          · rename_i hbuf
            simp only [Prod.mk.injEq, true_and] at hr
            subst hr
            simpa [hnone, hbuf] using hh
      · split <;> simp
  case drain =>
    simp only [Room.push]
    split
    · simp
    · split
      · simp
      · split <;> simp
  case check => simp only [Room.push]; split <;> simp
  case fanout =>
    simp only [Room.push]
    split
    · split <;> simp
    · simp
  case fanned => simp [Room.push]
  case stopped => simp [Room.push]
  case crashed => simp [Room.push]

theorem step_env_armed (e : Env) (s : Sys) (ev : Ev) (hw : ev ≠ .work) (h : s.Armed) :
    (step e s ev).Armed := by
  cases ev with
  | work => exact absurd rfl hw
  | tick d => exact h
  | Put ch => exact h
  | Del ch => exact h
  | fire =>
    simp only [step]
    unfold timerFire
    split
    · exact h
    · split
      · split
        · rename_i ch hs
          intro _ _ _
          exact Or.inr (Chan.trySend_pending _ _ _ hs)
        · exact h
      · exact h
  | Push ver operation msg =>
    simp only [step]
    unfold Room.Push
    intro h1 h2 h3
    cases hset : s.room.proto.Set <;> simp only <;> split
    · rename_i ch hs
      exact Or.inr (Chan.trySend_pending _ _ _ hs)
    · exact h h1 h2 h3
    · rename_i ch hs
      exact Or.inr (Chan.trySend_pending _ _ _ hs)
    · exact h h1 h2 h3
  | Close =>
    simp only [step]
    unfold Room.Close
    split
    · rename_i r cs hc
      split at hc
      · rename_i ch hs
        simp only [Option.some.injEq, Prod.mk.injEq] at hc
        obtain ⟨hc1, -⟩ := hc
        subst hc1
        intro _ _ _
        exact Or.inr (Chan.trySend_pending _ _ _ hs)
      · cases hc
    · exact h

theorem NewRoom_armed (e : Env) (id now : Int) (o : RoomOptions) : (NewRoom e id now o).Armed := by
  intro h
  simp [NewRoom] at h

theorem Inv_last_le (t0 : Int) (s : Sys) (h : s.Inv t0) (hpc : s.w.pc = .top) (hn : 0 < s.w.n) :
    s.w.last ≤ s.now := by
  rcases h.2.2.2.2.2.2.2.2 with h | h | h | h
  · rw [hpc] at h; cases h
  · rw [hpc] at h; cases h
  · omega
  · exact h.2

theorem step_armed (e : Env) (t0 : Int) (s : Sys) (ev : Ev) (hinv : s.Inv t0)
    (h0 : 0 ≤ s.room.options.SignalTime) (hmax : s.room.options.SignalTime ≤ maxInt64)
    (h : s.Armed) : (step e s ev).Armed := by
  by_cases hw : ev = .work
  · subst hw
    exact push_armed e s h0 hmax (Inv_last_le t0 s hinv) h
  · exact step_env_armed e s ev hw h

theorem exec_armed (e : Env) (t0 : Int) (s : Sys) (evs : List Ev) (hinv : s.Inv t0)
    (h0 : 0 ≤ s.room.options.SignalTime) (hmax : s.room.options.SignalTime ≤ maxInt64)
    (h : s.Armed) : (exec e s evs).Armed := by
  induction evs generalizing s with
  | nil => exact h
  | cons ev evs ih =>
    exact ih _ (step_inv e t0 s ev hinv) (by rw [step_options]; exact h0)
      (by rw [step_options]; exact hmax) (step_armed e t0 s ev hinv h0 hmax h)

theorem push_now (e : Env) (s : Sys) : (Room.push e s).now = s.now := by
  rcases s with ⟨room, w, now, timer, flushed, closed⟩
  rcases w with ⟨pc, n, done, last, vers, ops, msgs⟩
  cases pc <;> simp only [Room.push]
  case start => split <;> simp
  case top => split <;> [split <;> simp; simp]
  case recv => split <;> [simp; (split <;> [simp; (split <;> simp)])]
  case drain => split <;> [simp; (split <;> [simp; (split <;> simp)])]
  case check => split <;> simp
  case fanout => split <;> [split <;> simp; simp]

/-- A step of the goroutine leaves the write cursor alone and advances the read cursor by
at most one, which it does only in its drain loop. -/
theorem push_ring (e : Env) (s : Sys) :
    (Room.push e s).room.proto.wp = s.room.proto.wp ∧
    ((Room.push e s).room.proto.rp = s.room.proto.rp ∨
      ((Room.push e s).room.proto.rp = s.room.proto.rp + 1 ∧ s.w.pc = .drain)) := by
  rcases s with ⟨room, w, now, timer, flushed, closed⟩
  rcases w with ⟨pc, n, done, last, vers, ops, msgs⟩
  cases pc <;> simp only [Room.push]
  case start => split <;> simp
  case top => split <;> [split <;> simp; simp]
  case recv => split <;> [simp; (split <;> [simp; (split <;> simp)])]
  case drain => split <;> [simp; (split <;> [simp; (split <;> simp [Ring.GetAdv])])]
  case check => split <;> simp
  case fanout => split <;> [split <;> simp; simp]
  all_goals simp

/-- A step of the goroutine writes `last` only at the head of the loop with nothing
accumulated. -/
theorem push_last (e : Env) (s : Sys) :
    (Room.push e s).w.last = s.w.last ∨ (s.w.pc = .top ∧ s.w.n = 0) := by
  rcases s with ⟨room, w, now, timer, flushed, closed⟩
  rcases w with ⟨pc, n, done, last, vers, ops, msgs⟩
  cases pc <;> simp only [Room.push]
  case start => split <;> simp
  case top => split <;> [split <;> simp; (simp; omega)]
  case recv => split <;> [simp; (split <;> [simp; (split <;> simp)])]
  case drain => split <;> [simp; (split <;> [simp; (split <;> simp)])]
  case check => split <;> simp
  case fanout => split <;> [split <;> simp; simp]
  all_goals simp

theorem push_delivered_length (e : Env) (s : Sys) :
    s.delivered.length ≤ (Room.push e s).delivered.length := by
  rcases push_flushed e s with h | ⟨-, -, -, -, -, h⟩
  · simp [Sys.delivered, h]
  · simp [Sys.delivered, h]

theorem push_count (e : Env) (s : Sys) (hwf : s.room.proto.WF)
    (hstart : s.w.pc = .start → s.w.n = 0) :
    (Room.push e s).delivered.length + (Room.push e s).acc.length + s.room.proto.rp =
      s.delivered.length + s.acc.length + (Room.push e s).room.proto.rp := by
  obtain ⟨hwf', ht⟩ := push_total e s hwf hstart
  have hl := congrArg List.length ht
  simp only [Sys.total, List.length_append, Ring.unread_length] at hl
  have hr := push_ring e s
  have h1 := hwf.1
  have h2 := hwf'.1
  omega

theorem acc_nil_of_n (s : Sys) (h : s.w.n = 0) : s.acc = [] := by
  unfold Sys.acc
  split
  · rfl
  · simp [h, batchOf]

theorem push_timely (e : Env) (t0 : Int) (ts : List Int) (s : Sys) (hinv : s.Inv t0)
    (h0 : 0 ≤ s.room.options.SignalTime) (hT : s.Timely ts) :
    (Room.push e s).Timely
      (ts ++ if (Room.push e s).room.proto.rp = s.room.proto.rp + 1 then [s.now] else []) := by
  obtain ⟨hT1, hT2⟩ := hT
  have hc := push_count e s hinv.1 (fun h => (hinv.2.2.1 h).1)
  have hr := push_ring e s
  have hd := push_delivered_length e s
  have hl := push_last e s
  have hlast := hinv.2.2.2.2.2.2.2.2
  refine ⟨?_, ?_⟩
  · split
    · simp only [List.length_append, List.length_singleton]; omega
    · rename_i hne
      rcases hr.2 with h | h
      · simp only [List.append_nil]; omega
      · exact absurd h.1 hne
  · intro k t hk hkt
    rw [push_options, push_now]
    by_cases hlt : k < ts.length
    · rw [List.getElem?_append_left hlt] at hkt
      obtain ⟨a, b⟩ := hT2 k t (by omega) hkt
      refine ⟨?_, b⟩
      rcases hl with hl | hl
      · rw [hl]; exact a
      · have := acc_nil_of_n s hl.2
        rw [this] at hT1
        simp only [List.length_nil] at hT1
        omega
    · rw [List.getElem?_append_right (by omega)] at hkt
      split at hkt
      · rename_i hm
        have hpc : s.w.pc = .drain := by
          rcases hr.2 with h | h
          · omega
          · exact h.2
        cases hi : k - ts.length with
        | zero =>
          rw [hi] at hkt
          simp only [List.getElem?_cons_zero, Option.some.injEq] at hkt
          subst hkt
          rcases hl with hl | hl
          · rw [hl]
            rcases hlast with h | h | h | h
            · rw [hpc] at h; cases h
            · rw [hpc] at h; cases h
            · rw [hpc] at h; cases h.1
            · exact ⟨h.2, by omega⟩
          · rw [hpc] at hl; cases hl.1
        | succ i =>
          rw [hi] at hkt
          simp at hkt
      · simp at hkt

theorem Sys.Timely_congr (ts : List Int) (s s' : Sys) (hw : s'.w = s.w)
    (hf : s'.flushed = s.flushed) (hn : s'.now = s.now)
    (ho : s'.room.options = s.room.options) (h : s.Timely ts) : s'.Timely ts := by
  unfold Sys.Timely Sys.delivered Sys.acc at *
  rw [hw, hf, hn, ho]
  exact h

theorem step_env_timely (e : Env) (ts : List Int) (s : Sys) (ev : Ev) (hw : ev ≠ .work)
    (harm : s.Armed)
    (hp : ∀ d, ev = .tick d → s.mayWait d = true)
    (hT : s.Timely ts) : (step e s ev).Timely ts := by
  cases ev with
  | work => exact absurd rfl hw
  | tick d =>
    have hp := hp d rfl
    obtain ⟨hT1, hT2⟩ := hT
    refine ⟨hT1, ?_⟩
    intro k t hk hkt
    have hlen : k < ts.length := by
      rcases Nat.lt_or_ge k ts.length with h | h
      · exact h
      · rw [List.getElem?_eq_none h] at hkt; cases hkt
    obtain ⟨a, b⟩ := hT2 k t hk hkt
    refine ⟨a, ?_⟩
    simp only [step] at hk ⊢
    have hacc : s.acc ≠ [] := by
      intro h
      rw [h] at hT1
      simp only [List.length_nil] at hT1
      simp only [Sys.delivered] at hT1 hk
      omega
    have hfan : s.w.pc ≠ .fanned := by
      intro h
      apply hacc
      simp [Sys.acc, h]
    have hn : 0 < s.w.n := by
      rcases Nat.eq_zero_or_pos s.w.n with h | h
      · exact absurd (acc_nil_of_n s h) hacc
      · exact h
    unfold Sys.mayWait at hp
    simp only [Bool.or_eq_true, Bool.and_eq_true, decide_eq_true_eq, Bool.not_eq_true'] at hp
    rcases hp with hp | hp
    · exact absurd hp hfan
    · obtain ⟨⟨⟨⟨⟨h1, h2⟩, -⟩, h4⟩, h5⟩, h6⟩ := hp
      rcases harm h1 h2 hn with h | h | h
      · rw [h] at h6
        simp only [Option.all_some, decide_eq_true_eq] at h6
        omega
      · exact absurd h4 h
      · exact absurd h5 h
  | fire =>
    have hf := step_env_frame e s .fire (by simp) (by simp)
    refine Sys.Timely_congr ts s _ hf.2.2.1 hf.2.2.2.1 ?_ hf.2.1 hT
    simp only [step]
    unfold timerFire
    split
    · rfl
    · split <;> [split <;> rfl; rfl]
  | Put ch => exact Sys.Timely_congr ts s _ rfl rfl rfl rfl hT
  | Del ch => exact Sys.Timely_congr ts s _ rfl rfl rfl rfl hT
  | Push ver operation msg =>
    refine Sys.Timely_congr ts s _ rfl rfl rfl ?_ hT
    simp only [step]
    exact (Room.Push_frame e s.room ver operation msg).2.1
  | Close =>
    have hf := step_env_frame e s .Close (by simp) (by simp)
    refine Sys.Timely_congr ts s _ hf.2.2.1 hf.2.2.2.1 ?_ hf.2.1 hT
    simp only [step]
    split <;> rfl

theorem mergedAt_work (e : Env) (s : Sys) (evs : List Ev) :
    mergedAt e s (.work :: evs) =
      (if (Room.push e s).room.proto.rp = s.room.proto.rp + 1 then [s.now] else []) ++
        mergedAt e (Room.push e s) evs := rfl

theorem mergedAt_env (e : Env) (s : Sys) (ev : Ev) (evs : List Ev) (hw : ev ≠ .work) :
    mergedAt e s (ev :: evs) = mergedAt e (step e s ev) evs := by
  cases ev <;> first | rfl | exact absurd rfl hw

theorem prompt_cons (e : Env) (s : Sys) (ev : Ev) (evs : List Ev)
    (h : prompt e s (ev :: evs) = true) :
    (∀ d, ev = .tick d → s.mayWait d = true) ∧ prompt e (step e s ev) evs = true := by
  cases ev <;> simp only [prompt, Bool.and_eq_true] at h <;> refine ⟨?_, h.2⟩ <;> intro d hd <;>
    first | cases hd; exact h.1 | cases hd

theorem exec_timely (e : Env) (t0 : Int) (evs : List Ev) :
    ∀ (s : Sys) (ts : List Int), s.Inv t0 → 0 ≤ s.room.options.SignalTime →
      s.room.options.SignalTime ≤ maxInt64 → s.Armed → s.Timely ts →
      prompt e s evs = true → (exec e s evs).Timely (ts ++ mergedAt e s evs) := by
  induction evs with
  | nil =>
    intro s ts _ _ _ _ hT _
    rw [show mergedAt e s [] = [] from rfl, List.append_nil]
    exact hT
  | cons ev evs ih =>
    intro s ts hinv h0 hmax harm hT hp
    obtain ⟨hp1, hp2⟩ := prompt_cons e s ev evs hp
    rw [exec_cons]
    by_cases hw : ev = .work
    · subst hw
      rw [mergedAt_work, ← List.append_assoc]
      exact ih (step e s .work) _ (step_inv e t0 s .work hinv)
        (by rw [step_options]; exact h0) (by rw [step_options]; exact hmax)
        (step_armed e t0 s .work hinv h0 hmax harm) (push_timely e t0 ts s hinv h0 hT) hp2
    · rw [mergedAt_env e s ev evs hw]
      exact ih (step e s ev) _ (step_inv e t0 s ev hinv)
        (by rw [step_options]; exact h0) (by rw [step_options]; exact hmax)
        (step_armed e t0 s ev hinv h0 hmax harm) (step_env_timely e ts s ev hw harm hp1 hT) hp2

theorem NewRoom_timely (e : Env) (id now : Int) (o : RoomOptions) :
    (NewRoom e id now o).Timely [] := by
  refine ⟨?_, ?_⟩
  · simp [Sys.delivered, Sys.acc, NewRoom, batchOf]
  · intro k t _ h
    simp at h

/-- C4, as stated, fails: in the run `exLate`, in which nobody is late and the lock is
respected, with two accepted messages and `BatchNum = 3`, the second message is published
at time 50 while the goroutine is about to fan out, and at time 103, more than
`SignalTime = 50` later, it has not been flushed. -/
theorem latency_from_publish_fails : ¬ BoundedLatency exEnv (NewRoom exEnv 7 0 exOptions) := by
  intro h
  have := h exLate (by decide) (by decide) 1 50 (by decide) (by decide)
  revert this
  decide

/-- C5. No early partial flush, for a `SignalTime` that is an `int64`. In every state a
new room can reach: (a) every flush of fewer than `BatchNum` messages began at least
`SignalTime` after the cycle start `last` the goroutine held, which is an instant of this
room; (b) if fewer than `BatchNum` messages have been accepted, no flush began earlier
than `SignalTime` after the room's creation; (c) when the goroutine is at the head of its
loop with accumulated messages, the remaining time it computes is not positive and there
are too few unread messages to fill the batch, its next steps, run on their own, flush
one batch, the accumulated messages followed by all unread ones in order, with one call
per subscriber carrying that batch, and leave the ring empty; (d) there the remaining
time it computes is not positive only if `SignalTime` has elapsed since `last`, and for
`0 ≤ SignalTime` exactly if it has. -/
theorem no_early_short_flush (e : Env) (id now : Int) (o : RoomOptions) (pre : List Ev)
    (s0 : Sys) (hs0 : s0 = exec e (NewRoom e id now o) pre) (hT : o.Typed) :
    (∀ f ∈ s0.flushed, (f.vers.length : Int) < o.BatchNum →
      now ≤ f.last ∧ f.last + o.SignalTime ≤ f.time) ∧
    (((accepted e (NewRoom e id now o) pre).length : Int) < o.BatchNum →
      ∀ f ∈ s0.flushed, now + o.SignalTime ≤ f.time) ∧
    (s0.w.pc = .top → 0 < s0.w.n → s0.least ≤ 0 →
      ((s0.w.n + s0.room.proto.unread.length : Nat) : Int) < o.BatchNum →
      ∃ f, ((Room.push e)^[s0.room.proto.unread.length + 5] s0).flushed = s0.flushed ++ [f] ∧
        f.time = s0.now ∧
        batchOf f.vers f.ops f.msgs = s0.acc ++ s0.room.proto.unread ∧
        f.calls.map PushsCall.ch = s0.room.chs.val ∧
        (∀ c ∈ f.calls, c.vers = f.vers ∧ c.ops = f.ops ∧ c.msgs = f.msgs) ∧
        ((Room.push e)^[s0.room.proto.unread.length + 5] s0).room.proto.unread = []) ∧
    (s0.w.pc = .top → 0 < s0.w.n →
      (s0.least ≤ 0 → o.SignalTime ≤ s0.now - s0.w.last) ∧
      (0 ≤ o.SignalTime → o.SignalTime ≤ s0.now - s0.w.last → s0.least ≤ 0)) := by
  have hinv : s0.Inv now := by rw [hs0]; exact exec_inv e now _ pre (NewRoom_inv e id now o)
  have hlog : s0.LogOk now := by
    rw [hs0]; exact exec_logOk e now _ pre (NewRoom_inv e id now o) (NewRoom_logOk e id now o)
  have hopt : s0.room.options = o := by rw [hs0, exec_options]; rfl
  have htot : s0.total = accepted e (NewRoom e id now o) pre := by
    rw [hs0]; exact (push_total_eq e id now o pre)
  have hA : ∀ f ∈ s0.flushed, (f.vers.length : Int) < o.BatchNum →
      now ≤ f.last ∧ f.last + o.SignalTime ≤ f.time := by
    intro f hf hlt
    have := hlog f hf
    rw [hopt] at this
    exact ⟨this.2.2.2.2.2.2.1, this.2.2.2.2.2.2.2.2 hT hlt⟩
  refine ⟨hA, ?_, ?_, ?_⟩
  · intro hfew f hf
    have hok := hlog f hf
    have hlen : (batchOf f.vers f.ops f.msgs).length = f.vers.length :=
      batchOf_length _ _ _ hok.1 hok.2.1
    have h1 : (batchOf f.vers f.ops f.msgs).length ≤ s0.delivered.length :=
      length_le_flatten _ _ (List.mem_map.mpr ⟨f, hf, rfl⟩)
    have h2 : s0.delivered.length ≤ s0.total.length := by
      simp [Sys.total]
    rw [htot] at h2
    have := hA f hf (by omega)
    omega
  · intro hpc hn hd hfew
    obtain ⟨hwf, -, -, -, harr, -, -, -, -⟩ := hinv
    obtain ⟨-, hv, ho, hm, -⟩ := harr (by simp [hpc]) (by simp [hpc])
    rw [← hopt] at hfew
    obtain ⟨f, h1, h2, -, h4, h5, -, h7, -⟩ :=
      deadline_flush e s0 hpc hn hd hwf hv ho hm (by omega)
    refine ⟨f, h1, h2, ?_, ?_, ?_, h7⟩
    · rw [h4]; simp [Sys.acc, hpc]
    · rw [h5, fanOut_ch]
    · intro c hc
      rw [h5] at hc
      obtain ⟨-, a, b, c', -⟩ := fanOut_mem _ _ _ _ _ _ c hc
      exact ⟨a, b, c'⟩
  · intro hpc hn
    have hl := Inv_last_le now s0 hinv hpc hn
    refine ⟨?_, ?_⟩
    · intro hd
      have := least_nonpos_imp o.SignalTime (s0.now - s0.w.last) hT.1 hT.2 (by omega)
        (by rw [← hopt]; exact hd)
      exact this
    · intro h0 hd
      have := (least_exact o.SignalTime (s0.now - s0.w.last) h0 hT.2 (by omega)).1.2 hd
      rw [← hopt] at this
      exact this

theorem no_early_short_flush_witness :
    (exec exEnv (NewRoom exEnv 7 0 exOptions) exScenario).flushed = [] ∧
    (exec exEnv (NewRoom exEnv 7 0 exOptions) exScenario).now = 50 ∧
    (exec exEnv (NewRoom exEnv 7 0 exOptions) exScenario).least ≤ 0 ∧
    ∃ f, ((Room.push exEnv)^[0 + 5] (exec exEnv (NewRoom exEnv 7 0 exOptions) exScenario)).flushed
        = [] ++ [f] ∧
      f.time = 50 ∧
      batchOf f.vers f.ops f.msgs = [⟨1, 4, [10]⟩, ⟨1, 4, [11]⟩] ++ [] ∧
      f.calls.map PushsCall.ch = ({1, 2} : Finset Nat).val :=
  have h := no_early_short_flush exEnv 7 0 exOptions exScenario _ rfl (by decide)
  have hc : (exec exEnv (NewRoom exEnv 7 0 exOptions) exScenario).room.chs = {1, 2} := by
    decide
  ⟨by decide, by decide, (h.2.2.2 (by decide) (by decide)).2 (by decide) (by decide),
    (h.2.2.1 (by decide) (by decide) (by decide) (by decide)).imp
      (fun _ hf => ⟨hf.1, hf.2.1, hf.2.2.1, by rw [hf.2.2.2.1, hc]⟩)⟩

theorem least_fits (S d : Int) (h1 : minInt64 ≤ S) (h2 : S ≤ maxInt64) (hd : 0 ≤ d)
    (h : 0 ≤ S ∨ minInt64 ≤ S - d) :
    (wrap64 (S - sat64 d) ≤ 0 ↔ S - d ≤ 0) ∧
    (0 < wrap64 (S - sat64 d) → wrap64 (S - sat64 d) = S - d) := by
  unfold wrap64 sat64 minInt64 maxInt64 at *
  split_ifs <;> constructor <;> (try constructor) <;> intros <;> omega

/-- C15, as stated, fails: with `SignalTime` the least `int64`, the iteration of `exWrap`
begins at time 1 with `n = 1` and `last = 0`, so `SignalTime - (now - last) ≤ 0`; computed
in `int64` the difference wraps around to a positive value, and the goroutine is not due:
it schedules the timer far in the future, not at `last + SignalTime`, and waits at its
receive; a thousand time units later, nobody being late, nothing has been flushed. -/
theorem deadline_wraps :
    (exec exEnv (NewRoom exEnv 7 0 exMinTime) exWrap).w.pc = .top ∧
    (exec exEnv (NewRoom exEnv 7 0 exMinTime) exWrap).w.n = 1 ∧
    exMinTime.SignalTime - ((exec exEnv (NewRoom exEnv 7 0 exMinTime) exWrap).now -
      (exec exEnv (NewRoom exEnv 7 0 exMinTime) exWrap).w.last) ≤ 0 ∧
    (Room.push exEnv (exec exEnv (NewRoom exEnv 7 0 exMinTime) exWrap)).w.done = false ∧
    (Room.push exEnv (exec exEnv (NewRoom exEnv 7 0 exMinTime) exWrap)).w.pc = .recv ∧
    (Room.push exEnv (exec exEnv (NewRoom exEnv 7 0 exMinTime) exWrap)).timer =
      some 9223372036854775808 ∧
    (Room.push exEnv (exec exEnv (NewRoom exEnv 7 0 exMinTime) exWrap)).timer ≠
      some ((exec exEnv (NewRoom exEnv 7 0 exMinTime) exWrap).w.last + exMinTime.SignalTime) ∧
    prompt exEnv (NewRoom exEnv 7 0 exMinTime) (exWrap ++ [.work, .work, .tick 1000]) = true ∧
    (exec exEnv (NewRoom exEnv 7 0 exMinTime) (exWrap ++ [.work, .work, .tick 1000])).w.n = 1 ∧
    (exec exEnv (NewRoom exEnv 7 0 exMinTime)
      (exWrap ++ [.work, .work, .tick 1000])).flushed = [] := by
  decide

/-- C15, amended. Deadline handling: let a new room have reached the head of the loop with
`n > 0`, and let `remaining` be `SignalTime - (now - last)` as the goroutine computes it,
in `int64`. If `remaining ≤ 0`, the step sets `done`, the next step goes to the merge
loop without receiving, both leave the wake queue and the timer as they are, and the
goroutine's following steps, run on their own, merge unread messages up to `BatchNum` and
flush the non-empty batch at that same instant, the wake queue still untouched. If
`remaining > 0`, the step reschedules the timer to `now + remaining` with `done` clear,
and the next step is the receive: it parks when there is nothing to receive, and
otherwise takes the value, stopping on anything but `ProtoReady`. For a `SignalTime`
that is an `int64`, when `0 ≤ SignalTime` or the exact difference is not below the least
`int64`, the computed `remaining` has the sign of the exact difference and, when
positive, its value, so that the timer is rescheduled to `last + SignalTime`. -/
theorem deadline_handling (e : Env) (id now : Int) (o : RoomOptions) (pre : List Ev)
    (s0 : Sys) (hs0 : s0 = exec e (NewRoom e id now o) pre)
    (hpc : s0.w.pc = .top) (hn : 0 < s0.w.n) :
    (s0.least ≤ 0 →
      (Room.push e s0).w.done = true ∧ (Room.push e s0).w.pc = .recv ∧
      (Room.push e s0).room.signal = s0.room.signal ∧ (Room.push e s0).timer = s0.timer ∧
      (Room.push e (Room.push e s0)).w.pc = .drain ∧
      (Room.push e (Room.push e s0)).room.signal = s0.room.signal ∧
      ∃ f, ((Room.push e)^[min s0.room.proto.unread.length (o.BatchNum.toNat - s0.w.n) + 5] s0).flushed
          = s0.flushed ++ [f] ∧
        1 ≤ f.vers.length ∧ f.time = s0.now ∧
        batchOf f.vers f.ops f.msgs = (s0.acc ++ s0.room.proto.unread).take o.BatchNum.toNat ∧
        f.calls.map PushsCall.ch = s0.room.chs.val ∧
        ((Room.push e)^[min s0.room.proto.unread.length (o.BatchNum.toNat - s0.w.n) + 5]
          s0).room.signal = s0.room.signal) ∧
    (0 < s0.least →
      (Room.push e s0).timer = some (s0.now + s0.least) ∧
      (Room.push e s0).w.pc = .recv ∧ (Room.push e s0).w.done = false ∧
      (Room.push e s0).room.signal = s0.room.signal ∧ (Room.push e s0).flushed = s0.flushed ∧
      (s0.room.signal.handoff = none → s0.room.signal.buf = [] →
        (Room.push e (Room.push e s0)).w.pc = .recv ∧
        (Room.push e (Room.push e s0)).room.signal.parked = true ∧
        (Room.push e (Room.push e s0)).flushed = s0.flushed) ∧
      (∀ v ch, s0.room.signal.recv = (some v, ch) →
        (Room.push e (Room.push e s0)).w.pc = (if v ≠ e.ProtoReady then .stopped else .drain) ∧
        (Room.push e (Room.push e s0)).room.signal = ch)) ∧
    (o.Typed → 0 ≤ o.SignalTime ∨ minInt64 ≤ o.SignalTime - (s0.now - s0.w.last) →
      (s0.least ≤ 0 ↔ o.SignalTime - (s0.now - s0.w.last) ≤ 0) ∧
      (0 < s0.least → s0.least = o.SignalTime - (s0.now - s0.w.last) ∧
        (Room.push e s0).timer = some (s0.w.last + o.SignalTime))) := by
  have hinv : s0.Inv now := by rw [hs0]; exact exec_inv e now _ pre (NewRoom_inv e id now o)
  have hopt : s0.room.options = o := by rw [hs0, exec_options]; rfl
  have hl := Inv_last_le now s0 hinv hpc hn
  obtain ⟨hwf, -, -, -, harr, htop, -, -, -⟩ := hinv
  obtain ⟨-, hv, ho, hm, hnB⟩ := harr (by simp [hpc]) (by simp [hpc])
  have hdone : s0.w.done = false := htop hpc
  refine ⟨?_, ?_, ?_⟩
  · intro hd
    have e1 := push_top_due e s0 hpc hn hd
    have e2 := push_recv_done e (Room.push e s0) (by rw [e1]) (by rw [e1])
    obtain ⟨f, h1, h2, -, h4, h5, h6, -, -, h9, -⟩ :=
      due_flush e s0 hpc hn hd hwf hv ho hm hnB
        (min s0.room.proto.unread.length (s0.room.options.BatchNum.toNat - s0.w.n)) rfl
    rw [hopt] at h1 h4 h5 h9
    refine ⟨by rw [e1], by rw [e1], by rw [e1], by rw [e1], by rw [e2], by rw [e2, e1],
      f, h1, by omega, h2, ?_, by rw [h6, fanOut_ch], h9⟩
    rw [h5]
    have hacc : s0.acc = batchOf (s0.w.vers.take s0.w.n) (s0.w.ops.take s0.w.n)
        (s0.w.msgs.take s0.w.n) := by simp [Sys.acc, hpc]
    rw [hacc]
    apply take_batch _ _ _ s0.w.n _ _ (by rw [← hopt]; exact hnB) rfl
    rw [batchOf_length _ _ _ (by simp; omega) (by simp; omega)]
    simp; omega
  · intro hd
    have e1 := push_top_wait e s0 hpc hn hd
    refine ⟨by rw [e1], by rw [e1], by rw [e1]; exact hdone, by rw [e1], by rw [e1], ?_, ?_⟩
    · intro hh hb
      have e2 := push_recv_park e (Room.push e s0) (by rw [e1]) (by rw [e1]; exact hdone)
        (by rw [e1]; exact hh) (by rw [e1]; exact hb)
      rw [e2, e1]
      exact ⟨rfl, rfl, rfl⟩
    · intro v ch hr
      have e2 := push_recv e (Room.push e s0) v ch (by rw [e1]) (by rw [e1]; exact hdone)
        (by rw [e1]; exact hr)
      rw [e2]
      by_cases hvr : v ≠ e.ProtoReady
      · rw [if_pos hvr, if_pos hvr]; exact ⟨rfl, rfl⟩
      · rw [if_neg hvr, if_neg hvr]; exact ⟨rfl, rfl⟩
  · intro hT hfit
    have hf := least_fits o.SignalTime (s0.now - s0.w.last) hT.1 hT.2 (by omega) hfit
    have hleast : s0.least = wrap64 (o.SignalTime - sat64 (s0.now - s0.w.last)) := by
      rw [Sys.least, hopt]
    rw [hleast]
    refine ⟨hf.1, ?_⟩
    intro hpos
    have hv := hf.2 hpos
    refine ⟨hv, ?_⟩
    rw [push_top_wait e s0 hpc hn (by rw [hleast]; exact hpos), hleast, hv]
    simp only [Option.some.injEq]
    omega

theorem deadline_handling_witness :
    (exec exEnv (NewRoom exEnv 7 0 exOptions) exScenario).now = 50 ∧
    (Room.push exEnv (exec exEnv (NewRoom exEnv 7 0 exOptions) exScenario)).w.done = true ∧
    (exec exEnv (NewRoom exEnv 7 0 exOptions) exEarly).now = 10 ∧
    (Room.push exEnv (exec exEnv (NewRoom exEnv 7 0 exOptions) exEarly)).timer =
      some ((exec exEnv (NewRoom exEnv 7 0 exOptions) exEarly).w.last + exOptions.SignalTime) :=
  ⟨by decide,
   ((deadline_handling exEnv 7 0 exOptions exScenario _ rfl (by decide) (by decide)).1
      (by decide)).1,
   by decide,
   (((deadline_handling exEnv 7 0 exOptions exEarly _ rfl (by decide) (by decide)).2.2
      (by decide) (Or.inl (by decide))).2 (by decide)).2⟩

/-- C11, amended. `NewRoom` validates nothing and keeps the options it is given. For a
positive ring capacity, `BatchNum ≥ 0` and every `SignalTime` it yields a room with no
subscribers on which `Put`, `Online` and `Push` work and whose goroutine never panics. A
negative `BatchNum` makes the goroutine panic at its first step, when it allocates the
batch arrays: the goroutine is then never anywhere but before that step or panicked,
and nothing is ever flushed. With `BatchNum = 0` the goroutine never flushes and every
accepted message stays unread in the ring. With `SignalTime = 0`, and with a negative
`int64` `SignalTime` as long as `SignalTime - (now - last)` is not below the least
`int64`, every iteration that begins with accumulated messages is due at once. -/
theorem NewRoom_validates_nothing (e : Env) (id now : Int) (o : RoomOptions) (ch : Nat)
    (ver operation : Int) (msg : List Nat) (evs : List Ev) (hP : 0 < o.ProtoSize) :
    (NewRoom e id now o).room.options = o ∧
    (0 ≤ o.BatchNum →
      (NewRoom e id now o).room.Online = 0 ∧
      ((NewRoom e id now o).room.Put ch).Online = 1 ∧
      ((NewRoom e id now o).room.Push e ver operation msg).2 = none ∧
      (Room.push e (NewRoom e id now o)).w.pc = .top ∧
      (exec e (NewRoom e id now o) evs).w.pc ≠ .crashed) ∧
    (o.BatchNum < 0 →
      (Room.push e (NewRoom e id now o)).w.pc = .crashed ∧
      ((exec e (NewRoom e id now o) evs).w.pc = .start ∨
        (exec e (NewRoom e id now o) evs).w.pc = .crashed) ∧
      (exec e (NewRoom e id now o) evs).flushed = []) ∧
    (o.BatchNum = 0 →
      (exec e (NewRoom e id now o) evs).flushed = [] ∧
      (exec e (NewRoom e id now o) evs).room.proto.unread = accepted e (NewRoom e id now o) evs) ∧
    (o.Typed → o.SignalTime ≤ 0 →
      (exec e (NewRoom e id now o) evs).w.pc = .top →
      0 < (exec e (NewRoom e id now o) evs).w.n →
      o.SignalTime = 0 ∨ minInt64 ≤ o.SignalTime -
        ((exec e (NewRoom e id now o) evs).now - (exec e (NewRoom e id now o) evs).w.last) →
      (Room.push e (exec e (NewRoom e id now o) evs)).w.done = true ∧
      (Room.push e (exec e (NewRoom e id now o) evs)).timer
        = (exec e (NewRoom e id now o) evs).timer) := by
  have hinv := exec_inv e now _ evs (NewRoom_inv e id now o)
  have hlog := exec_logOk e now _ evs (NewRoom_inv e id now o) (NewRoom_logOk e id now o)
  have hopt : (exec e (NewRoom e id now o) evs).room.options = o := by rw [exec_options]; rfl
  have htot := push_total_eq e id now o evs
  have hfl : o.BatchNum ≤ 0 → (exec e (NewRoom e id now o) evs).flushed = [] := by
    intro hB
    rcases hf : (exec e (NewRoom e id now o) evs).flushed with _ | ⟨f, fs⟩
    · rfl
    · have := hlog f (by rw [hf]; simp)
      rw [hopt] at this
      have h1 := this.2.2.1
      have h2 := this.2.2.2.1
      omega
  refine ⟨rfl, ?_, ?_, ?_, ?_⟩
  · intro hB
    refine ⟨by simp [NewRoom, Room.Online], by simp [NewRoom, Room.Online, Room.Put], ?_, ?_, ?_⟩
    · rw [Room.Push_snd]
      have : ¬ (o.ProtoSize.toNat ≤ 0) := by omega
      simp [NewRoom, Ring.Init, Ring.Set, this]
    · have : ¬ (o.BatchNum < 0) := by omega
      simp [NewRoom, Room.push, this]
    · intro hc
      have := hinv.2.2.2.1 hc
      rw [hopt] at this
      omega
  · intro hB
    refine ⟨by simp [NewRoom, Room.push, hB], ?_, hfl (by omega)⟩
    by_cases hs : (exec e (NewRoom e id now o) evs).w.pc = .start
    · exact Or.inl hs
    · by_cases hc : (exec e (NewRoom e id now o) evs).w.pc = .crashed
      · exact Or.inr hc
      · have := (hinv.2.2.2.2.1 hs hc).1
        rw [hopt] at this
        omega
  · intro hB
    have hfl0 := hfl (by omega)
    generalize exec e (NewRoom e id now o) evs = s at hinv hlog hopt htot hfl0
    refine ⟨hfl0, ?_⟩
    obtain ⟨-, -, hstart, hcr, harr, -, -, -, -⟩ := hinv
    rw [hopt] at hcr harr
    have hn : s.w.n = 0 := by
      by_cases hs : s.w.pc = .start
      · exact (hstart hs).1
      · have hnc : s.w.pc ≠ .crashed := fun hc => by have := hcr hc; omega
        have := harr hs hnc
        omega
    have hacc : s.acc = [] := acc_nil_of_n s hn
    rw [← htot]
    simp [Sys.total, Sys.delivered, hfl0, hacc]
  · intro hT hS hpc hn hfit
    generalize exec e (NewRoom e id now o) evs = s at hinv hlog hopt htot hpc hn hfit
    have hl := Inv_last_le now s hinv hpc hn
    have hf := (least_fits o.SignalTime (s.now - s.w.last) hT.1 hT.2 (by omega)
      (by rcases hfit with h | h
          · exact Or.inl (by omega)
          · exact Or.inr h)).1.2 (by omega)
    rw [push_top_due e s hpc hn (by rw [Sys.least, hopt]; exact hf)]
    exact ⟨rfl, rfl⟩

theorem NewRoom_validates_nothing_witness :
    ((NewRoom exEnv 7 0 exZeroBatch).room.Put 1).Online = 1 ∧
    ((NewRoom exEnv 7 0 exZeroBatch).room.Push exEnv 1 4 [10]).2 = none ∧
    (exec exEnv (NewRoom exEnv 7 0 exZeroBatch) exOneMessage).w.pc ≠ .crashed ∧
    (exec exEnv (NewRoom exEnv 7 0 exZeroBatch) exOneMessage).flushed = [] :=
  have h := NewRoom_validates_nothing exEnv 7 0 exZeroBatch 1 1 4 [10] exOneMessage (by decide)
  have h0 := h.2.1 (by decide)
  ⟨h0.2.1, h0.2.2.1, h0.2.2.2.2, (h.2.2.2.1 rfl).1⟩

/-- C3. Count-triggered flush: let a room with `BatchNum > 0` have reached the head of the
merge loop with `n` accumulated and at least `BatchNum - n` unread messages. Whatever
else happens meanwhile (calls of `Push`, `Put`, `Del`, `Close`, timer expiry, any amount
of time), during its next `BatchNum - n + 3` steps the goroutine stays on the path merge
loop, due check, fan-out, never at the receive or the head of the loop; after
`BatchNum - n + 2` of them it is about to fan out, and its next step appends one flush of
exactly `BatchNum` messages, the accumulated ones followed by the oldest unread ones,
in which every subscriber the room has at that moment is called exactly once, each call
carrying these slices; so after exactly `BatchNum - n + 3` steps that flush has been
made. Nothing is assumed about the clock or `last`. -/
theorem count_triggered_flush (e : Env) (id now : Int) (o : RoomOptions) (pre evs : List Ev)
    (s0 : Sys) (hs0 : s0 = exec e (NewRoom e id now o) pre)
    (hpc : s0.w.pc = .drain) (hB : 0 < o.BatchNum)
    (hcount : o.BatchNum ≤ s0.w.n + s0.room.proto.unread.length)
    (hk : workCount evs ≤ (o.BatchNum.toNat - s0.w.n) + 3) :
    ((exec e s0 evs).w.pc = .drain ∨ (exec e s0 evs).w.pc = .check ∨
      (exec e s0 evs).w.pc = .fanout ∨ (exec e s0 evs).w.pc = .fanned) ∧
    (workCount evs = (o.BatchNum.toNat - s0.w.n) + 2 →
      (exec e s0 evs).w.pc = .fanout ∧
      ∃ f, (Room.push e (exec e s0 evs)).flushed = s0.flushed ++ [f] ∧
        (f.vers.length : Int) = o.BatchNum ∧
        batchOf f.vers f.ops f.msgs = (s0.acc ++ s0.room.proto.unread).take o.BatchNum.toNat ∧
        f.calls.map PushsCall.ch = (exec e s0 evs).room.chs.val ∧
        ∀ c ∈ f.calls, c.vers = f.vers ∧ c.ops = f.ops ∧ c.msgs = f.msgs) ∧
    (workCount evs = (o.BatchNum.toNat - s0.w.n) + 3 →
      (exec e s0 evs).w.pc = .fanned ∧
      ∃ f, (exec e s0 evs).flushed = s0.flushed ++ [f] ∧
        (f.vers.length : Int) = o.BatchNum ∧
        batchOf f.vers f.ops f.msgs = (s0.acc ++ s0.room.proto.unread).take o.BatchNum.toNat ∧
        ∀ c ∈ f.calls, c.vers = f.vers ∧ c.ops = f.ops ∧ c.msgs = f.msgs) := by
  have hinv : s0.Inv now := by rw [hs0]; exact exec_inv e now _ pre (NewRoom_inv e id now o)
  have hlog : s0.LogOk now := by
    rw [hs0]; exact exec_logOk e now _ pre (NewRoom_inv e id now o) (NewRoom_logOk e id now o)
  have hopt : s0.room.options = o := by rw [hs0, exec_options]; rfl
  obtain ⟨hwf, -, -, -, harr, -, -, -, -⟩ := hinv
  obtain ⟨-, hv, ho, hm, hn⟩ := harr (by simp [hpc]) (by simp [hpc])
  have hacc : s0.acc = batchOf (s0.w.vers.take s0.w.n) (s0.w.ops.take s0.w.n)
      (s0.w.msgs.take s0.w.n) := by simp [Sys.acc, hpc]
  have hfl : s0.Flushing ((s0.acc ++ s0.room.proto.unread).take o.BatchNum.toNat) s0.flushed
      ((o.BatchNum.toNat - s0.w.n) + 3) := by
    unfold Sys.Flushing
    rw [hopt, ← hacc]
    rw [hopt] at hv ho hm hn
    exact ⟨hB, hv, ho, hm, Or.inl ⟨hpc, hwf, hn, by omega, rfl, rfl, rfl⟩⟩
  have hres := exec_flushing e _ _ _ s0 evs hfl hk
  refine ⟨flushing_pc _ _ _ _ hres, ?_, ?_⟩
  · intro heq
    rw [heq, show o.BatchNum.toNat - s0.w.n + 3 - (o.BatchNum.toNat - s0.w.n + 2) = 1 by omega]
      at hres
    have hopt' : (exec e s0 evs).room.options = o := by rw [exec_options, hopt]
    obtain ⟨-, hv', ho', hm', h | h | h⟩ := hres
    · omega
    · obtain ⟨h1, -, h3, h4, h5⟩ := h
      rw [hopt'] at hv' ho' hm' h3
      have hpc' : (exec e s0 evs).w.pc = .fanout := by
        rcases h1 with h1 | h1
        · omega
        · exact h1.1
      have e1 := push_fanout e (exec e s0 evs) hpc' (by omega) ⟨by omega, by omega, by omega⟩
      refine ⟨hpc', _, by rw [e1, h5], ?_, h4, by rw [fanOut_ch], ?_⟩
      · simp only [List.length_take]
        omega
      · intro c hc
        obtain ⟨-, a, b, c', -⟩ := fanOut_mem _ _ _ _ _ _ c hc
        exact ⟨a, b, c'⟩
    · omega
  · intro heq
    rw [heq, Nat.sub_self] at hres
    obtain ⟨-, -, -, -, h | h | h⟩ := hres
    · omega
    · rcases h.1 with h | h <;> omega
    · obtain ⟨hpc', -, f, hf1, hf2, hf3⟩ := h
      refine ⟨hpc', f, hf1, ?_, hf3, ?_⟩
      · rw [hf2, exec_options, hopt]; omega
      · have hinv' := exec_logOk e now s0 evs
          (by rw [hs0]; exact exec_inv e now _ pre (NewRoom_inv e id now o)) hlog f
          (by rw [hf1]; simp)
        exact hinv'.2.2.2.2.1

theorem count_triggered_flush_witness :
    (exec exEnv (NewRoom exEnv 7 0 exOptions) exBurst).w.pc = .drain ∧
    (exec exEnv (exec exEnv (NewRoom exEnv 7 0 exOptions) exBurst)
      [.work, .tick 1, .work, .Del 2, .work, .work, .work]).w.pc = .fanout ∧
    ∃ f, (Room.push exEnv (exec exEnv (exec exEnv (NewRoom exEnv 7 0 exOptions) exBurst)
        [.work, .tick 1, .work, .Del 2, .work, .work, .work])).flushed = [] ++ [f] ∧
      (f.vers.length : Int) = 3 ∧
      f.calls.map PushsCall.ch = ({1} : Finset Nat).val :=
  have h := (count_triggered_flush exEnv 7 0 exOptions exBurst
    [.work, .tick 1, .work, .Del 2, .work, .work, .work] _ rfl (by decide) (by decide)
    (by decide) (by decide)).2.1 (by decide)
  have hc : (exec exEnv (exec exEnv (NewRoom exEnv 7 0 exOptions) exBurst)
      [.work, .tick 1, .work, .Del 2, .work, .work, .work]).room.chs = {1} := by decide
  ⟨by decide, h.1, h.2.imp (fun _ hf => ⟨hf.1, hf.2.1, by rw [hf.2.2.2.1, hc]⟩)⟩

theorem push_handed (e : Env) (s : Sys) : (Room.push e s).Handed := by
  rcases s with ⟨room, w, now, timer, flushed, closed⟩
  rcases w with ⟨pc, n, done, last, vers, ops, msgs⟩
  unfold Sys.Handed
  cases pc <;> simp only [Room.push]
  case start => split <;> simp
  case top => split <;> [split <;> simp; simp]
  case recv => split <;> [simp; (split <;> [simp; (split <;> simp)])]
  case drain => split <;> [simp; (split <;> [simp; (split <;> simp)])]
  case check => split <;> simp
  case fanout =>
    split
    · split
      · intro _
        exact ⟨flushed, _, rfl, rfl, rfl, rfl⟩
      · simp
    · simp
  all_goals simp

theorem step_flushed_w (e : Env) (s : Sys) (ev : Ev) (hw : ev ≠ .work) :
    (step e s ev).w = s.w ∧ (step e s ev).flushed = s.flushed := by
  cases ev with
  | work => exact absurd rfl hw
  | Push ver operation msg => exact ⟨rfl, rfl⟩
  | tick d => exact ⟨rfl, rfl⟩
  | Put ch => exact ⟨rfl, rfl⟩
  | Del ch => exact ⟨rfl, rfl⟩
  | fire =>
    have h := step_env_frame e s .fire (by simp) (by simp)
    exact ⟨h.2.2.1, h.2.2.2.1⟩
  | Close =>
    have h := step_env_frame e s .Close (by simp) (by simp)
    exact ⟨h.2.2.1, h.2.2.2.1⟩

theorem step_handed (e : Env) (s : Sys) (ev : Ev) (h : s.Handed) : (step e s ev).Handed := by
  by_cases hw : ev = .work
  · subst hw
    exact push_handed e s
  · obtain ⟨h1, h2⟩ := step_flushed_w e s ev hw
    unfold Sys.Handed at h ⊢
    rw [h1, h2]
    exact h

theorem exec_handed (e : Env) (s : Sys) (evs : List Ev) (h : s.Handed) :
    (exec e s evs).Handed := by
  induction evs generalizing s with
  | nil => exact h
  | cons ev evs ih => exact ih _ (step_handed e s ev h)

/-- C1. Message conservation and order: after any sequence of events on a new room (any
interleaving of `Push` calls, steps of the goroutine, membership changes, timer expiry and
the passing of time): (1) the batches flushed so far in flush order, then the entries
`0..n-1` of the batch arrays, then the unread slots of the ring are exactly the messages
of the `Push` calls that returned nil, in call order, at every point of the goroutine
but the one between the deliveries of a flush and the reset of `n`; (2) at that point
the entries `0..n-1` are the batch flushed last, and the flushed batches followed by the
unread slots are the accepted messages; (3) the three slices of every flush have one
length, each of its calls carries them and no subscriber is called twice; (4) when the
goroutine is about to fan out a non-empty batch, its step appends one flush whose slices
are the entries `0..n-1` and in which every subscriber the room has at that moment is
called exactly once with these slices; (5) nothing else ever adds a flush. -/
theorem push_conservation (e : Env) (id now : Int) (o : RoomOptions) (evs : List Ev) :
    ((exec e (NewRoom e id now o) evs).w.pc ≠ .fanned →
      (exec e (NewRoom e id now o) evs).delivered ++
        batchOf ((exec e (NewRoom e id now o) evs).w.vers.take (exec e (NewRoom e id now o) evs).w.n)
          ((exec e (NewRoom e id now o) evs).w.ops.take (exec e (NewRoom e id now o) evs).w.n)
          ((exec e (NewRoom e id now o) evs).w.msgs.take (exec e (NewRoom e id now o) evs).w.n) ++
        (exec e (NewRoom e id now o) evs).room.proto.unread
      = accepted e (NewRoom e id now o) evs) ∧
    ((exec e (NewRoom e id now o) evs).w.pc = .fanned →
      (exec e (NewRoom e id now o) evs).delivered ++
        (exec e (NewRoom e id now o) evs).room.proto.unread
        = accepted e (NewRoom e id now o) evs ∧
      ∃ fl f, (exec e (NewRoom e id now o) evs).flushed = fl ++ [f] ∧
        f.vers = (exec e (NewRoom e id now o) evs).w.vers.take (exec e (NewRoom e id now o) evs).w.n ∧
        f.ops = (exec e (NewRoom e id now o) evs).w.ops.take (exec e (NewRoom e id now o) evs).w.n ∧
        f.msgs =
          (exec e (NewRoom e id now o) evs).w.msgs.take (exec e (NewRoom e id now o) evs).w.n) ∧
    (∀ f ∈ (exec e (NewRoom e id now o) evs).flushed,
      f.ops.length = f.vers.length ∧ f.msgs.length = f.vers.length ∧
      (f.calls.map PushsCall.ch).Nodup ∧
      ∀ c ∈ f.calls, c.vers = f.vers ∧ c.ops = f.ops ∧ c.msgs = f.msgs) ∧
    ((exec e (NewRoom e id now o) evs).w.pc = .fanout →
      0 < (exec e (NewRoom e id now o) evs).w.n →
      ∃ f, (Room.push e (exec e (NewRoom e id now o) evs)).flushed =
          (exec e (NewRoom e id now o) evs).flushed ++ [f] ∧
        f.vers = (exec e (NewRoom e id now o) evs).w.vers.take (exec e (NewRoom e id now o) evs).w.n ∧
        f.ops = (exec e (NewRoom e id now o) evs).w.ops.take (exec e (NewRoom e id now o) evs).w.n ∧
        f.msgs =
          (exec e (NewRoom e id now o) evs).w.msgs.take (exec e (NewRoom e id now o) evs).w.n ∧
        f.calls.map PushsCall.ch = (exec e (NewRoom e id now o) evs).room.chs.val ∧
        ∀ c ∈ f.calls, c.vers = f.vers ∧ c.ops = f.ops ∧ c.msgs = f.msgs) ∧
    (∀ ev : Ev, (step e (exec e (NewRoom e id now o) evs) ev).flushed =
        (exec e (NewRoom e id now o) evs).flushed ∨
      (ev = .work ∧ (exec e (NewRoom e id now o) evs).w.pc = .fanout ∧
        0 < (exec e (NewRoom e id now o) evs).w.n)) := by
  have htot := push_total_eq e id now o evs
  have hinv := exec_inv e now _ evs (NewRoom_inv e id now o)
  have hlog := exec_logOk e now _ evs (NewRoom_inv e id now o) (NewRoom_logOk e id now o)
  have hh : (exec e (NewRoom e id now o) evs).Handed :=
    exec_handed e _ evs (by intro h; simp [NewRoom] at h)
  generalize exec e (NewRoom e id now o) evs = s at htot hinv hlog hh
  refine ⟨?_, ?_, ?_, ?_, ?_⟩
  · intro hpc
    rw [← htot]
    simp [Sys.total, Sys.acc, hpc]
  · intro hpc
    refine ⟨?_, hh hpc⟩
    rw [← htot]
    simp [Sys.total, Sys.acc, hpc]
  · intro f hf
    have h := hlog f hf
    exact ⟨h.1, h.2.1, h.2.2.2.2.2.1, h.2.2.2.2.1⟩
  · intro hpc hn
    obtain ⟨-, hv, ho, hm, hnB⟩ := hinv.2.2.2.2.1 (by simp [hpc]) (by simp [hpc])
    rw [push_fanout e s hpc hn ⟨by omega, by omega, by omega⟩]
    refine ⟨_, rfl, rfl, rfl, rfl, by rw [fanOut_ch], ?_⟩
    intro c hc
    obtain ⟨-, a, b, c', -⟩ := fanOut_mem _ _ _ _ _ _ c hc
    exact ⟨a, b, c'⟩
  · intro ev
    by_cases hw : ev = .work
    · subst hw
      rcases push_flushed e s with h | h
      · exact Or.inl h
      · exact Or.inr ⟨rfl, h.1, h.2.1⟩
    · exact Or.inl (step_flushed_w e s ev hw).2

/-- A message accepted while the goroutine is parked at its receive, with room for it in
the batch, is merged by the goroutine's next steps at that same instant. -/
theorem waiting_merge (e : Env) (s : Sys) (ver operation : Int) (msg : List Nat)
    (hpc : s.w.pc = .recv) (hd : s.w.done = false) (hp : s.room.signal.parked = true)
    (hwf : s.room.proto.WF)
    (hv : s.w.vers.length = s.room.options.BatchNum.toNat)
    (ho : s.w.ops.length = s.room.options.BatchNum.toNat)
    (hm : s.w.msgs.length = s.room.options.BatchNum.toNat)
    (hacc : (s.room.Push e ver operation msg).2 = none)
    (hfew : s.w.n + s.room.proto.unread.length + 1 < s.room.options.BatchNum.toNat) :
    ((Room.push e)^[s.room.proto.unread.length + 2] (step e s (.Push ver operation msg))).acc =
      s.acc ++ s.room.proto.unread ++ [⟨ver, operation, msg⟩] ∧
    ((Room.push e)^[s.room.proto.unread.length + 2]
      (step e s (.Push ver operation msg))).room.proto.unread = [] ∧
    ((Room.push e)^[s.room.proto.unread.length + 2] (step e s (.Push ver operation msg))).now =
      s.now ∧
    ((Room.push e)^[s.room.proto.unread.length + 2]
      (step e s (.Push ver operation msg))).flushed = s.flushed := by
  have hset : ∃ i, s.room.proto.Set = .ok i := by
    rw [Room.Push_snd] at hacc
    cases h : s.room.proto.Set with
    | ok i => exact ⟨i, rfl⟩
    | error err => rw [h] at hacc; cases hacc
  obtain ⟨i, hi⟩ := hset
  obtain ⟨hroom, hidx⟩ := Ring.Set_ok _ _ hi
  have hproto : (step e s (.Push ver operation msg)).room.proto =
      (s.room.proto.store (s.room.proto.wp % s.room.proto.num) ⟨ver, operation, msg⟩).SetAdv := by
    simp only [step]
    rw [Room.Push_fst_proto, hi, hidx]
  have hsig : (step e s (.Push ver operation msg)).room.signal =
      { s.room.signal with parked := false, handoff := some e.ProtoReady } := by
    simp only [step, Room.Push, hi, Chan.trySend, hp, if_true]
  have hopt : (step e s (.Push ver operation msg)).room.options = s.room.options :=
    step_options e s _
  have hw : (step e s (.Push ver operation msg)).w = s.w := rfl
  have hun : (step e s (.Push ver operation msg)).room.proto.unread =
      s.room.proto.unread ++ [⟨ver, operation, msg⟩] := by
    rw [hproto]; exact Ring.unread_store_SetAdv _ _ hwf hroom
  have hwf1 : (step e s (.Push ver operation msg)).room.proto.WF := by
    rw [hproto]; exact Ring.wf_store_SetAdv _ _ _ hwf hroom
  have e1 := push_recv e (step e s (.Push ver operation msg)) e.ProtoReady
    { s.room.signal with parked := false, handoff := none } (by rw [hw]; exact hpc)
    (by rw [hw]; exact hd) (by rw [hsig]; rfl)
  rw [if_neg (by simp)] at e1
  have hrun := drain_run e (s.room.proto.unread.length + 1)
    (Room.push e (step e s (.Push ver operation msg)))
    (by rw [e1]) (by rw [e1]; exact hwf1) (by rw [e1]; simp [hun])
    (by rw [e1]; simpa [hw, hopt] using hv) (by rw [e1]; simpa [hw, hopt] using ho)
    (by rw [e1]; simpa [hw, hopt] using hm)
    (by rw [e1]; simp only [hw, hopt]; omega)
  rw [Function.iterate_succ_apply]
  obtain ⟨h1, -, h3, -, h5, -, -, -, -, -, h11, -, h13, -⟩ := hrun
  refine ⟨?_, h3, ?_, ?_⟩
  · have hs : s.acc = batchOf (s.w.vers.take s.w.n) (s.w.ops.take s.w.n)
        (s.w.msgs.take s.w.n) := by simp [Sys.acc, hpc]
    rw [hs]
    have hL : ∀ t : Sys, t.w.pc = .drain → t.acc =
        batchOf (t.w.vers.take t.w.n) (t.w.ops.take t.w.n) (t.w.msgs.take t.w.n) := by
      intro t ht
      simp [Sys.acc, ht]
    rw [hL _ h1, h5, e1]
    simp only [hw, hun, List.append_assoc]
  · rw [h11, e1]; rfl
  · rw [h13, e1]; rfl

/-- C4, amended. The bound runs from the instant at which the goroutine merges a message
into its batch, not from the publish time. For `0 ≤ SignalTime` (an `int64`), in every
run of a new room in which nobody is late and the lock is respected: the merge instants
are those of the messages flushed or accumulated, which with the unread ones are the
accepted messages in order; once more than `SignalTime` has passed since the `k`-th
message was merged, it has been flushed; a message still accumulated was merged no
earlier than the cycle start `last` and no more than `SignalTime` ago; while the
goroutine is parked at its receive holding accumulated messages with no notification
there, the timer is registered for exactly `last + SignalTime`; and a message accepted
while the goroutine is parked at its receive, with room for it in the batch, is merged
by the goroutine's next steps, run on their own, at that same instant. -/
theorem latency_from_merge (e : Env) (id now : Int) (o : RoomOptions) (evs : List Ev)
    (h0 : 0 ≤ o.SignalTime) (hmax : o.SignalTime ≤ maxInt64)
    (hp : prompt e (NewRoom e id now o) evs = true) :
    (mergedAt e (NewRoom e id now o) evs).length =
      (exec e (NewRoom e id now o) evs).delivered.length +
        (exec e (NewRoom e id now o) evs).acc.length ∧
    (exec e (NewRoom e id now o) evs).delivered ++ (exec e (NewRoom e id now o) evs).acc ++
      (exec e (NewRoom e id now o) evs).room.proto.unread = accepted e (NewRoom e id now o) evs ∧
    (∀ (k : Nat) (t : Int), (mergedAt e (NewRoom e id now o) evs)[k]? = some t →
      t + o.SignalTime < (exec e (NewRoom e id now o) evs).now →
      k < (exec e (NewRoom e id now o) evs).delivered.length) ∧
    (∀ (k : Nat) (t : Int), (exec e (NewRoom e id now o) evs).delivered.length ≤ k →
      (mergedAt e (NewRoom e id now o) evs)[k]? = some t →
      (exec e (NewRoom e id now o) evs).w.last ≤ t ∧
      (exec e (NewRoom e id now o) evs).now ≤ t + o.SignalTime) ∧
    ((exec e (NewRoom e id now o) evs).w.pc = .recv →
      (exec e (NewRoom e id now o) evs).w.done = false →
      0 < (exec e (NewRoom e id now o) evs).w.n →
      (exec e (NewRoom e id now o) evs).room.signal.handoff = none →
      (exec e (NewRoom e id now o) evs).room.signal.buf = [] →
      (exec e (NewRoom e id now o) evs).timer =
        some ((exec e (NewRoom e id now o) evs).w.last + o.SignalTime)) ∧
    (∀ (ver operation : Int) (msg : List Nat),
      (exec e (NewRoom e id now o) evs).w.pc = .recv →
      (exec e (NewRoom e id now o) evs).w.done = false →
      (exec e (NewRoom e id now o) evs).room.signal.parked = true →
      ((exec e (NewRoom e id now o) evs).room.Push e ver operation msg).2 = none →
      (((exec e (NewRoom e id now o) evs).w.n +
        (exec e (NewRoom e id now o) evs).room.proto.unread.length + 1 : Nat) : Int)
          < o.BatchNum →
      ((Room.push e)^[(exec e (NewRoom e id now o) evs).room.proto.unread.length + 2]
          (step e (exec e (NewRoom e id now o) evs) (.Push ver operation msg))).acc =
        (exec e (NewRoom e id now o) evs).acc ++
          (exec e (NewRoom e id now o) evs).room.proto.unread ++ [⟨ver, operation, msg⟩] ∧
      ((Room.push e)^[(exec e (NewRoom e id now o) evs).room.proto.unread.length + 2]
          (step e (exec e (NewRoom e id now o) evs) (.Push ver operation msg))).now =
        (exec e (NewRoom e id now o) evs).now) := by
  have hopt : (exec e (NewRoom e id now o) evs).room.options = o := by rw [exec_options]; rfl
  have hT := exec_timely e now evs (NewRoom e id now o) [] (NewRoom_inv e id now o) h0 hmax
    (NewRoom_armed e id now o) (NewRoom_timely e id now o) hp
  have harm := exec_armed e now (NewRoom e id now o) evs (NewRoom_inv e id now o) h0 hmax
    (NewRoom_armed e id now o)
  have hinv := exec_inv e now _ evs (NewRoom_inv e id now o)
  rw [List.nil_append] at hT
  obtain ⟨hT1, hT2⟩ := hT
  rw [hopt] at hT2
  refine ⟨hT1, ?_, ?_, hT2, ?_, ?_⟩
  · exact push_total_eq e id now o evs
  · intro k t hk hlate
    rcases Nat.lt_or_ge k (exec e (NewRoom e id now o) evs).delivered.length with h | h
    · exact h
    · have := (hT2 k t h hk).2
      omega
  · intro h1 h2 h3 h4 h5
    rcases harm h1 h2 h3 with h | h | h
    · rw [h, hopt]
    · exact absurd h4 h
    · exact absurd h5 h
  · intro ver operation msg hpc hd hpk hacc hfew
    obtain ⟨-, hv, ho, hm, -⟩ := hinv.2.2.2.2.1 (by simp [hpc]) (by simp [hpc])
    have := waiting_merge e _ ver operation msg hpc hd hpk hinv.1 hv ho hm hacc
      (by rw [hopt]; omega)
    exact ⟨this.1, this.2.2.1⟩

theorem latency_from_merge_witness :
    mergedAt exEnv (NewRoom exEnv 7 0 exOptions) exLate = [0, 55] ∧
    (exec exEnv (NewRoom exEnv 7 0 exOptions) exLate).now = 103 ∧
    0 < (exec exEnv (NewRoom exEnv 7 0 exOptions) exLate).delivered.length ∧
    (exec exEnv (NewRoom exEnv 7 0 exOptions) exLate).timer = some (55 + 50) ∧
    ((Room.push exEnv)^[0 + 2]
      (step exEnv (exec exEnv (NewRoom exEnv 7 0 exOptions) [.Put 1, .Put 2, .work, .work, .work])
        (.Push 1 4 [10]))).acc = [] ++ [] ++ [⟨1, 4, [10]⟩] :=
  have h := latency_from_merge exEnv 7 0 exOptions exLate (by decide) (by decide) (by decide)
  have h2 := latency_from_merge exEnv 7 0 exOptions [.Put 1, .Put 2, .work, .work, .work]
    (by decide) (by decide) (by decide)
  ⟨by decide, by decide, h.2.2.1 0 0 (by decide) (by decide),
   h.2.2.2.2.1 (by decide) (by decide) (by decide) (by decide) (by decide),
   (h2.2.2.2.2.2 1 4 [10] (by decide) (by decide) (by decide) (by decide) (by decide)).1⟩

end Comet
